import Mathlib

/-!
Shallow embedding of `INI-Parser.h` (classes `IniParser` and `IniParserX`).

C++ `std::string` is modelled as `List Char`, the two `unordered_map`s as
association lists (a deterministic refinement: lookup ignores order, and
order only matters for serialization, where the C++ iteration order is
unspecified anyway), and thrown exceptions as `Except Err`.  All `size_t`
index arithmetic from the source is reproduced, including the wrap-around
of `sq - sp - 1` when `sq < sp` (for any physically realisable string the
wrapped count exceeds the length, so `substr` returns the whole tail; we
translate that case as "take the whole tail").
-/

set_option autoImplicit false

namespace IniP

/-- Strings are char lists. -/
abbrev Str := List Char

/-- Coerce a Lean string literal to the model's string type. -/
def chars (s : String) : Str := s.data

/-- The exception taxonomy of `INI-Parser.h`, plus `outOfRange` for
`std::out_of_range` thrown by `substr`/`at`, and `undefinedBack` marking the
undefined behaviour of `std::vector::back()` on an empty vector. -/
inductive Err where
  | keyNotFound
  | keyAlreadyExist
  | fileLoadedError
  | keyNotArray
  | keyIsArray
  | canNotArray
  | outOfRange
  | undefinedBack
  deriving DecidableEq, Repr

/-- First value bound to a key in an association list (`unordered_map` find/at). -/
def lookupA {α : Type} : List (Str × α) → Str → Option α
  | [], _ => none
  | (k', v) :: t, k => if k' = k then some v else lookupA t k

/-- `m[k] = v` on an `unordered_map`: replace the existing binding in place,
or append a new one. -/
def setA {α : Type} : List (Str × α) → Str → α → List (Str × α)
  | [], k, v => [(k, v)]
  | (k', v') :: t, k, v => if k' = k then (k', v) :: t else (k', v') :: setA t k v

/-- `m.erase(k)` on an `unordered_map`. -/
def eraseA {α : Type} : List (Str × α) → Str → List (Str × α)
  | [], _ => []
  | (k', v') :: t, k => if k' = k then t else (k', v') :: eraseA t k

/-- A section: key-name to value, as stored in `builder`'s inner maps. -/
abbrev KVs := List (Str × Str)

/-- The document: `builder` in the source, section name to section. -/
abbrev Doc := List (Str × KVs)

/-- `builder[s][k]` read as an rvalue. -/
def bget (d : Doc) (s k : Str) : Option Str :=
  (lookupA d s).bind fun kvs => lookupA kvs k

/-- `builder[s][k] = v`: creates the section and/or the key as needed. -/
def bset (d : Doc) (s k v : Str) : Doc :=
  match lookupA d s with
  | none => d ++ [(s, [(k, v)])]
  | some kvs => setA d s (setA kvs k v)

/-- `builder[s][k]` used as an lvalue reference (`operator[]` chains in the
source): default-inserts an empty string when the key is missing and returns
the updated document together with the referenced value. -/
def bref (d : Doc) (s k : Str) : Doc × Str :=
  match bget d s k with
  | some v => (d, v)
  | none => (bset d s k [], [])

/-- `arrays[p].push_back(v)` (also used for `connection`): default-construct
the vector when absent, then append. -/
def pushA (a : List (Str × List Str)) (p : Str) (v : Str) : List (Str × List Str) :=
  match lookupA a p with
  | none => a ++ [(p, [v])]
  | some es => setA a p (es ++ [v])

/-- `arrays[p].assign(begin, end)`: default-construct when absent, then
overwrite the whole vector. -/
def aset (a : List (Str × List Str)) (p : Str) (es : List Str) : List (Str × List Str) :=
  match lookupA a p with
  | none => a ++ [(p, es)]
  | some _ => setA a p es

/-- `s.find(c)`: index of the first occurrence, `none` for `npos`. -/
def findChar (c : Char) : Str → Option Nat
  | [] => none
  | a :: t => if a = c then some 0 else (findChar c t).map (· + 1)

/-- `s.find(pat)` for a substring pattern: index of the first position where
`pat` occurs, `none` for `npos`. -/
def findSub (pat : Str) : Str → Option Nat
  | [] => if pat.isPrefixOf ([] : Str) then some 0 else none
  | a :: t => if pat.isPrefixOf (a :: t) then some 0 else (findSub pat t).map (· + 1)

/-- The literal `"[]"` used for array keys. -/
def brackets : Str := ['[', ']']

/-- The segment of `s` from its first to its last non-space character. -/
def trim (s : Str) : Str :=
  ((s.dropWhile (· == ' ')).reverse.dropWhile (· == ' ')).reverse

/-- `IniParser::strip`: `s.substr(st, ed - st + 1)` with
`st = find_first_not_of(' ')` and `ed = find_last_not_of(' ')`.  When `s` has
no non-space character both are `npos` and `substr(npos, ...)` throws
`std::out_of_range`; otherwise the result is the segment from the first to
the last non-space character. -/
def strip (s : Str) : Except Err Str :=
  if s.all (· == ' ') then .error .outOfRange else .ok (trim s)

/-- `IniParser::include`: split a qualified key at the first `/` when
present; otherwise just look the section up. -/
def include' (d : Doc) (key : Str) : Bool :=
  match findChar '/' key with
  | none => (lookupA d key).isSome
  | some x =>
    match lookupA d (key.take x) with
    | none => false
    | some kvs => (lookupA kvs (key.drop (x + 1))).isSome

/-- `IniParser::value(key)` (single qualified-key overload). -/
def value1 (d : Doc) (key : Str) : Except Err (Doc × Str) :=
  match findChar '/' key with
  | none => .error .keyNotFound
  | some x =>
    if include' d key then .ok (bref d (key.take x) (key.drop (x + 1)))
    else .error .keyNotFound

/-- `IniParser::value(section, key)`. -/
def value2 (d : Doc) (s k : Str) : Except Err (Doc × Str) :=
  if include' d s then
    if include' d (s ++ ['/'] ++ k) then .ok (bref d s k)
    else .error .keyNotFound
  else .error .keyNotFound

/-- `IniParser::operator[]`. -/
def opIndex (d : Doc) (key : Str) : Except Err (Doc × Str) :=
  match findChar '/' key with
  | none => .error .keyNotFound
  | some x =>
    if include' d (key.take x) then .ok (bref d (key.take x) (key.drop (x + 1)))
    else .error .keyNotFound

/-- `IniParser::add_key` (the `IniParserX` override has the identical body). -/
def addKey (d : Doc) (s k v : Str) : Except Err Doc :=
  if (findSub brackets k).isSome then .error .canNotArray
  else if !include' d s then .ok (bset d s k v)
  else if !include' d (s ++ ['/'] ++ k) then .ok (bset d s k v)
  else .error .keyAlreadyExist

/-- `IniParser::remove_key` (the `IniParserX` override has the identical
body): `builder[section].erase(key)` default-creates the section when it is
absent, and the section is erased afterwards when it ended up empty. -/
def removeKey (d : Doc) (s k : Str) : Except Err Doc :=
  if include' d (s ++ ['/'] ++ k) then
    let inner' := eraseA ((lookupA d s).getD []) k
    .ok (if inner' = [] then eraseA d s else setA d s inner')
  else .error .keyNotFound

/-- The value text an assignment line stores, as the source computes it:
`substr(sp + 1, sq - sp - 1)` when a `;` exists, else `substr(sp + 1)`.
When `sq < sp` the `size_t` count wraps around, so `substr` yields the whole
tail. -/
def valueRaw (buf : Str) (sp : Nat) : Str :=
  match findChar ';' buf with
  | some sq => if sp < sq then (buf.drop (sp + 1)).take (sq - sp - 1) else buf.drop (sp + 1)
  | none => buf.drop (sp + 1)

/-- The value text of an assignment line under the spec's reading: the text
after the first `=`, truncated at a `;` occurring after the `=` (when every
`;` of the line occurs after the `=`, this coincides with `valueRaw`). -/
def valuePart (buf : Str) (sp : Nat) : Str :=
  match findChar ';' buf with
  | some sq => (buf.drop (sp + 1)).take (sq - sp - 1)
  | none => buf.drop (sp + 1)

/-- The section-header name both parsers extract:
`substr(st + 1, find(']') - st - 1)`, with the `size_t` wrap-around giving
the whole tail when `]` is missing or precedes the first `[`. -/
def headerName (buf : Str) (stx : Nat) : Str :=
  match findChar ']' buf with
  | some e => if stx < e then (buf.drop (stx + 1)).take (e - stx - 1) else buf.drop (stx + 1)
  | none => buf.drop (stx + 1)

/-- State of the base parser: the document plus the function-local `static
std::string section` of `IniParser::parse_inline`.  Being `static`, that
variable is initialised empty once at program start and is *not* reset by
`load_ini_file`, which is why it is part of the threaded state. -/
structure StateB where
  builder : Doc
  cur : Str
  deriving DecidableEq, Repr

/-- The state at program start: empty document, empty static section. -/
def st0B : StateB := ⟨[], []⟩

/-- `IniParser::parse_inline`.  Faithful points: the comment test is
`buffer.find(';') == 0`; `sq` is the first `;` of the *whole* line, and when
`sq < sp` the count `sq - sp - 1` wraps around `size_t`, so `substr` yields
the whole tail; the header name is `substr(st + 1, find(']') - st - 1)` with
the same wrap-around when `]` is missing or precedes `[`. -/
def parseInlineB (st : StateB) (buf : Str) : Except Err StateB :=
  if findChar ';' buf = some 0 then .ok st else
  match findChar '=' buf with
  | some sp =>
    match strip (buf.take sp) with
    | .error e => .error e
    | .ok key =>
      match strip (valueRaw buf sp) with
      | .error e => .error e
      | .ok val => .ok { st with builder := bset st.builder st.cur key val }
  | none =>
    match findChar '[' buf with
    | some stx => .ok { st with cur := headerName buf stx }
    | none => .ok st

/-- `IniParser::load_ini_file`'s parsing loop over the lines of the file
(file probing and I/O are elided; the loop body is `parse_inline(buf)` for
each line, and a thrown exception propagates out of the loop). -/
def loadLinesB (st : StateB) : List Str → Except Err StateB
  | [] => .ok st
  | l :: t =>
    match parseInlineB st l with
    | .error e => .error e
    | .ok st' => loadLinesB st' t

/-- State of the extended parser: document, `arrays`, `connection`, and the
function-local `static std::string section` of `IniParserX::parse_inline`. -/
structure StateX where
  builder : Doc
  arrays : List (Str × List Str)
  connection : List (Str × List Str)
  cur : Str
  deriving DecidableEq, Repr

/-- The extended parser's state at program start. -/
def st0X : StateX := ⟨[], [], [], []⟩

/-- `IniParserX::get_array_name`: drop everything from the first `"[]"` on. -/
def getArrayName (n : Str) : Str :=
  match findSub brackets n with
  | some p => n.take p
  | none => n

/-- `IniParserX::is_array(key)` (qualified-key overload). -/
def isArray1 (st : StateX) (key : Str) : Bool :=
  (lookupA st.arrays (getArrayName key)).isSome

/-- `IniParserX::is_array(section, key)`. -/
def isArray2 (st : StateX) (s k : Str) : Bool :=
  (lookupA st.arrays (s ++ ['/'] ++ getArrayName k)).isSome

/-- `std::unordered_map::at`: throws `std::out_of_range` when absent. -/
def atA (a : List (Str × List Str)) (k : Str) : Except Err (List Str) :=
  match lookupA a k with
  | some v => .ok v
  | none => .error .outOfRange

/-- `std::vector::at`: throws `std::out_of_range` when out of bounds. -/
def atIdx (es : List Str) (i : Nat) : Except Err Str :=
  match es[i]? with
  | some e => .ok e
  | none => .error .outOfRange

/-- `IniParserX::size_of_array(key)`.  Note the source checks
`is_array(real_key)` but then evaluates `arrays.at(key)` on the *unstripped*
argument. -/
def sizeOfArray1 (st : StateX) (key : Str) : Except Err Nat :=
  let realKey := getArrayName key
  if isArray1 st realKey then
    match atA st.arrays key with
    | .error e => .error e
    | .ok es => .ok es.length
  else .error .keyNotArray

/-- `IniParserX::size_of_array(section, key)`. -/
def sizeOfArray2 (st : StateX) (s k : Str) : Except Err Nat :=
  let q := s ++ ['/'] ++ getArrayName k
  if isArray1 st q then
    match atA st.arrays q with
    | .error e => .error e
    | .ok es => .ok es.length
  else .error .keyNotArray

/-- `IniParserX::value_of_array(section, key, index)`. -/
def valueOfArray2 (st : StateX) (s k : Str) (i : Nat) : Except Err Str :=
  let q := s ++ ['/'] ++ getArrayName k
  if isArray1 st q then
    match atA st.arrays q with
    | .error e => .error e
    | .ok es => atIdx es i
  else .error .keyNotArray

/-- `IniParserX::add_array`.  `array.back()` on an empty vector is undefined
behaviour in the source; it is modelled as the `undefinedBack` trap. -/
def addArray (st : StateX) (s k : Str) (arr : List Str) : Except Err StateX :=
  let realKey := getArrayName k
  let q := s ++ ['/'] ++ realKey
  if !include' st.builder (q ++ brackets) && !include' st.builder q then
    match arr.getLast? with
    | none => .error .undefinedBack
    | some last =>
      .ok { st with builder := bset st.builder s (k ++ brackets) last,
                    arrays := aset st.arrays q arr }
  else .error .keyAlreadyExist

/-- `IniParserX::remove_array`.  The builder erasure uses `key + "[]"` on the
*unstripped* argument; `builder[section]` default-creates the section, which
is erased again when it ends up empty. -/
def removeArray (st : StateX) (s k : Str) : Except Err StateX :=
  let realKey := getArrayName k
  if isArray2 st s k then
    let q := s ++ ['/'] ++ realKey
    let inner' := eraseA ((lookupA st.builder s).getD []) (k ++ brackets)
    .ok { st with arrays := eraseA st.arrays q,
                  builder := if inner' = [] then eraseA st.builder s
                             else setA st.builder s inner' }
  else .error .keyNotArray

/-- `IniParserX::value(key)`: as the base overload plus the `KeyIsArray`
check on the suffix-stripped qualified key. -/
def valueX1 (st : StateX) (key : Str) : Except Err (StateX × Str) :=
  match findChar '/' key with
  | none => .error .keyNotFound
  | some x =>
    if include' st.builder key then
      if isArray1 st key then .error .keyIsArray
      else
        let (b', v) := bref st.builder (key.take x) (key.drop (x + 1))
        .ok ({ st with builder := b' }, v)
    else .error .keyNotFound

/-- `IniParserX::value(section, key)`. -/
def valueX2 (st : StateX) (s k : Str) : Except Err (StateX × Str) :=
  if include' st.builder s then
    if include' st.builder (s ++ ['/'] ++ k) then
      if isArray1 st (s ++ ['/'] ++ k) then .error .keyIsArray
      else
        let (b', v) := bref st.builder s k
        .ok ({ st with builder := b' }, v)
    else .error .keyNotFound
  else .error .keyNotFound

/-- `IniParserX::operator[]`. -/
def opIndexX (st : StateX) (key : Str) : Except Err (StateX × Str) :=
  match findChar '/' key with
  | none => .error .keyNotFound
  | some x =>
    if include' st.builder (key.take x) then
      if isArray1 st key then .error .keyIsArray
      else
        let (b', v) := bref st.builder (key.take x) (key.drop (x + 1))
        .ok ({ st with builder := b' }, v)
    else .error .keyNotFound

/-- `IniParserX::parse_inline`: as the base parser, but an assignment whose
key contains `"[]"` additionally appends the value to
`arrays[section + "/" + key-before-the-suffix]`, and section headers handle
the leading-dot / embedded-dot nesting convention.  `tmp_section[0]` on an
empty name reads the terminating `'\0'` in C++, which never equals `'.'`,
matching the `head?` test here. -/
def parseInlineX (st : StateX) (buf : Str) : Except Err StateX :=
  if findChar ';' buf = some 0 then .ok st else
  match findChar '=' buf with
  | some sp =>
    match strip (buf.take sp) with
    | .error e => .error e
    | .ok key =>
      match strip (valueRaw buf sp) with
      | .error e => .error e
      | .ok val =>
        let arrays' :=
          match findSub brackets key with
          | some pt => pushA st.arrays (st.cur ++ ['/'] ++ key.take pt) val
          | none => st.arrays
        .ok { st with arrays := arrays', builder := bset st.builder st.cur key val }
  | none =>
    match findChar '[' buf with
    | some stx =>
      let tmp := headerName buf stx
      if tmp.head? = some '.' then
        .ok { st with connection := pushA st.connection st.cur (tmp.drop 1),
                      cur := st.cur ++ tmp }
      else
        match findChar '.' tmp with
        | some pt =>
          .ok { st with connection := pushA st.connection (tmp.take pt) (tmp.drop (pt + 1)),
                        cur := tmp }
        | none => .ok { st with cur := tmp }
    | none => .ok st

/-- `IniParserX::load_ini_file`'s parsing loop (I/O elided, as in the base). -/
def loadLinesX (st : StateX) : List Str → Except Err StateX
  | [] => .ok st
  | l :: t =>
    match parseInlineX st l with
    | .error e => .error e
    | .ok st' => loadLinesX st' t

/-- The lines `IniParserX::save_ini_file` emits for one key of one section:
one `key[] = element` line per stored array element when the raw key
contains `"[]"`, otherwise the single `key = value` line. -/
def saveKV (st : StateX) (s : Str) (kv : Str × Str) : Except Err (List Str) :=
  match findSub brackets kv.1 with
  | some _ =>
    match sizeOfArray2 st s kv.1 with
    | .error e => .error e
    | .ok n =>
      (List.range n).mapM fun i =>
        match valueOfArray2 st s kv.1 i with
        | .error e => .error e
        | .ok e => .ok (kv.1 ++ [' ', '=', ' '] ++ e)
  | none => .ok [kv.1 ++ [' ', '=', ' '] ++ kv.2]

/-- `IniParserX::save_ini_file`: per section a `[name]` line, the key lines,
and a blank separator line (file I/O elided; the result is the line list). -/
def saveX (st : StateX) : Except Err (List Str) :=
  match st.builder.mapM (fun sec => do
      let body ← sec.2.mapM (saveKV st sec.1)
      pure ((['['] ++ sec.1 ++ [']']) :: body.flatten ++ [([] : Str)])) with
  | .error e => .error e
  | .ok blocks => .ok blocks.flatten

/-- `IniParserX::remove_key` acting on the extended state; its body is the
base `remove_key` and it does not touch `arrays` or `connection`. -/
def removeKeyX (st : StateX) (s k : Str) : Except Err StateX :=
  match removeKey st.builder s k with
  | .error e => .error e
  | .ok b' => .ok { st with builder := b' }

/-- `IniParserX::add_key` acting on the extended state (identical body to
the base `add_key`; it does not touch `arrays` or `connection`). -/
def addKeyX (st : StateX) (s k v : Str) : Except Err StateX :=
  match addKey st.builder s k v with
  | .error e => .error e
  | .ok b' => .ok { st with builder := b' }

/-- All readings of a path `p` as `section ++ "/" ++ key`, one per `/`. -/
def splits (p : Str) : List (Str × Str) :=
  (List.range p.length).filterMap fun i =>
    if p[i]? = some '/' then some (p.take i, p.drop (i + 1)) else none

/-- Decidable statement of the ArrayIndex bookkeeping invariant: every path
in `arrays` has, under some reading `section/key`, a raw `key[]` entry in
that section of the document. -/
def arrayBookkept (st : StateX) : Bool :=
  st.arrays.all fun pe =>
    (splits pe.1).any fun sk => (bget st.builder sk.1 (sk.2 ++ brackets)).isSome

/-- A line is array-benign when, if it is a non-comment assignment whose
stripped key contains `"[]"`, that occurrence is exactly the key's suffix. -/
def lineArrayBenign (buf : Str) : Bool :=
  if findChar ';' buf = some 0 then true else
  match findChar '=' buf with
  | some sp =>
    match strip (buf.take sp) with
    | .ok key =>
      match findSub brackets key with
      | some pt => decide (key = key.take pt ++ brackets)
      | none => true
    | .error _ => true
  | none => true

/-- Extended-parser states reachable from program start by the mutating
operations the spec names: `add_key`, `remove_key`, `add_array`,
`remove_array` and parsing.  Only successful calls change the state — every
failing call throws before mutating anything. -/
inductive ReachX : StateX → Prop where
  | init : ReachX st0X
  | addKey (st : StateX) (s k v : Str) (st' : StateX) :
      ReachX st → addKeyX st s k v = .ok st' → ReachX st'
  | removeKey (st : StateX) (s k : Str) (st' : StateX) :
      ReachX st → removeKeyX st s k = .ok st' → ReachX st'
  | addArray (st : StateX) (s k : Str) (arr : List Str) (st' : StateX) :
      ReachX st → addArray st s k arr = .ok st' → ReachX st'
  | removeArray (st : StateX) (s k : Str) (st' : StateX) :
      ReachX st → removeArray st s k = .ok st' → ReachX st'
  | parse (st : StateX) (buf : Str) (st' : StateX) :
      ReachX st → parseInlineX st buf = .ok st' → ReachX st'

/-- Reachability restricted to suffix-disciplined usage: `remove_key`,
`add_array` and `remove_array` are only invoked with key arguments that do
not contain `"[]"`, and parsed assignment lines carry `"[]"` in their key
only as an exact suffix. -/
inductive ReachArr : StateX → Prop where
  | init : ReachArr st0X
  | addKey (st : StateX) (s k v : Str) (st' : StateX) :
      ReachArr st → addKeyX st s k v = .ok st' → ReachArr st'
  | removeKey (st : StateX) (s k : Str) (st' : StateX) :
      ReachArr st → findSub brackets k = none → removeKeyX st s k = .ok st' → ReachArr st'
  | addArray (st : StateX) (s k : Str) (arr : List Str) (st' : StateX) :
      ReachArr st → findSub brackets k = none → addArray st s k arr = .ok st' → ReachArr st'
  | removeArray (st : StateX) (s k : Str) (st' : StateX) :
      ReachArr st → findSub brackets k = none → removeArray st s k = .ok st' → ReachArr st'
  | parse (st : StateX) (buf : Str) (st' : StateX) :
      ReachArr st → lineArrayBenign buf = true → parseInlineX st buf = .ok st' → ReachArr st'

/-- No empty section persists in the document. -/
def SectionsNonempty (d : Doc) : Prop :=
  ∀ s kvs, (s, kvs) ∈ d → kvs ≠ []

/-- Key names are unique within every section (an `unordered_map` fact the
association-list model maintains). -/
def InnerNodup (d : Doc) : Prop :=
  ∀ s kvs, (s, kvs) ∈ d → (kvs.map Prod.fst).Nodup

/-- The well-formedness facts every reachable document enjoys. -/
def DocWF (d : Doc) : Prop :=
  SectionsNonempty d ∧ (d.map Prod.fst).Nodup ∧ InnerNodup d

/-- A string that survives `strip` unchanged: nonempty, with no space at
either end. -/
def Trimmed (s : Str) : Prop :=
  s ≠ [] ∧ s.head? ≠ some ' ' ∧ s.getLast? ≠ some ' '

/-- `es.foldl (pushA · p ·)`: the net ArrayIndex effect of parsing the
repeated `key[] = element` lines of one array. -/
def pushAll (a : List (Str × List Str)) (p : Str) (es : List Str) :
    List (Str × List Str) :=
  es.foldl (fun acc e => pushA acc p e) a

/-- The lines `save_ini_file` emits for one key of one section, described
from the state (see `saveKV`): one line per stored element for an array
key, the single `key = value` line otherwise. -/
def linesOf (st : StateX) (S : Str) (kv : Str × Str) : List Str :=
  match findSub brackets kv.1 with
  | some pt =>
    ((lookupA st.arrays (S ++ ['/'] ++ kv.1.take pt)).getD []).map
      (fun e => kv.1 ++ [' ', '=', ' '] ++ e)
  | none => [kv.1 ++ [' ', '=', ' '] ++ kv.2]

/-- One saved section: header line, key lines, blank separator. -/
def blockOf (st : StateX) (sec : Str × KVs) : List Str :=
  (['['] ++ sec.1 ++ [']']) :: (sec.2.map (linesOf st sec.1)).flatten ++ [([] : Str)]

/-- The ArrayIndex entries re-parsing one saved section regenerates, in
emission order. -/
def arrayEntriesOf (st : StateX) (S : Str) (kvs : KVs) : List (Str × List Str) :=
  kvs.filterMap fun kv =>
    match findSub brackets kv.1 with
    | some pt => some (S ++ ['/'] ++ kv.1.take pt,
        (lookupA st.arrays (S ++ ['/'] ++ kv.1.take pt)).getD [])
    | none => none

/-- The whole regenerated ArrayIndex, in emission order. -/
def regenArrays (st : StateX) : List (Str × List Str) :=
  (st.builder.map fun sec => arrayEntriesOf st sec.1 sec.2).flatten

/-- Side conditions of the amended round-trip claim: section names survive
the header syntax (no `]`, no leading `.`, no `"[]"`), no stored key starts
with `;` (it would re-parse as a comment), and distinct raw keys never share
one ArrayIndex path. -/
structure Benign (st : StateX) : Prop where
  secOk : ∀ s kvs, (s, kvs) ∈ st.builder →
    ']' ∉ s ∧ s.head? ≠ some '.' ∧ findSub brackets s = none
  keyOk : ∀ s kvs k v, (s, kvs) ∈ st.builder → (k, v) ∈ kvs → k.head? ≠ some ';'
  arrInj : ∀ s₁ kvs₁ k₁ v₁ pt₁ s₂ kvs₂ k₂ v₂ pt₂,
    (s₁, kvs₁) ∈ st.builder → (k₁, v₁) ∈ kvs₁ → findSub brackets k₁ = some pt₁ →
    (s₂, kvs₂) ∈ st.builder → (k₂, v₂) ∈ kvs₂ → findSub brackets k₂ = some pt₂ →
    s₁ ++ '/' :: k₁.take pt₁ = s₂ ++ '/' :: k₂.take pt₂ → s₁ = s₂ ∧ k₁ = k₂

/-- The structural facts every state produced by parsing satisfies: a
well-formed document whose keys and values are trimmed and nonempty, keys
and sections free of `=`, values containing `;` only under keys containing
an earlier `;`, every array key backed by an ArrayIndex entry, and every
ArrayIndex entry fed by document keys with matching bookkeeping value. -/
structure PInv (st : StateX) : Prop where
  wf : DocWF st.builder
  curNoEq : '=' ∉ st.cur
  secNoEq : ∀ s kvs, (s, kvs) ∈ st.builder → '=' ∉ s
  entries : ∀ s k v, bget st.builder s k = some v →
    Trimmed k ∧ Trimmed v ∧ '=' ∉ k ∧ (';' ∈ v → ';' ∈ k)
    ∧ ∀ pt, findSub brackets k = some pt →
        (lookupA st.arrays (s ++ '/' :: k.take pt)).isSome
  arrNodup : (st.arrays.map Prod.fst).Nodup
  arrEntries : ∀ p es, (p, es) ∈ st.arrays →
    es ≠ []
    ∧ (∀ e ∈ es, Trimmed e ∧ ∃ s k pt, findSub brackets k = some pt
        ∧ p = s ++ '/' :: k.take pt ∧ (bget st.builder s k).isSome ∧ (';' ∈ e → ';' ∈ k))
    ∧ ∃ s k pt, findSub brackets k = some pt ∧ p = s ++ '/' :: k.take pt
        ∧ bget st.builder s k = es.getLast?

/-! ## Theorems -/

section AssocLemmas

variable {α : Type}

theorem lookupA_setA_self (l : List (Str × α)) (k : Str) (v : α) :
    lookupA (setA l k v) k = some v := by
  induction l with
  | nil => simp [setA, lookupA]
  | cons h t ih =>
    obtain ⟨k', v'⟩ := h
    by_cases hk : k' = k <;> simp [setA, lookupA, hk, ih]

theorem lookupA_setA_ne (l : List (Str × α)) (k k' : Str) (v : α) (h : k' ≠ k) :
    lookupA (setA l k v) k' = lookupA l k' := by
  have h' : k ≠ k' := Ne.symm h
  induction l with
  | nil => simp [setA, lookupA, h']
  | cons hd t ih =>
    obtain ⟨k₀, v₀⟩ := hd
    by_cases hk : k₀ = k
    · subst hk
      simp [setA, lookupA, h']
    · by_cases hk' : k₀ = k' <;> simp [setA, lookupA, hk, hk', h, h', ih]

theorem lookupA_eraseA_ne (l : List (Str × α)) (k k' : Str) (h : k' ≠ k) :
    lookupA (eraseA l k) k' = lookupA l k' := by
  have h' : k ≠ k' := Ne.symm h
  induction l with
  | nil => simp [eraseA]
  | cons hd t ih =>
    obtain ⟨k₀, v₀⟩ := hd
    by_cases hk : k₀ = k
    · subst hk
      simp [eraseA, lookupA, h']
    · by_cases hk' : k₀ = k' <;> simp [eraseA, lookupA, hk, hk', h, h', ih]

theorem lookupA_append_of_none (l m : List (Str × α)) (k : Str)
    (h : lookupA l k = none) : lookupA (l ++ m) k = lookupA m k := by
  induction l with
  | nil => simp
  | cons hd t ih =>
    obtain ⟨k₀, v₀⟩ := hd
    by_cases hk : k₀ = k <;> simp_all [lookupA]

theorem lookupA_append_of_some (l m : List (Str × α)) (k : Str) (v : α)
    (h : lookupA l k = some v) : lookupA (l ++ m) k = some v := by
  induction l with
  | nil => simp [lookupA] at h
  | cons hd t ih =>
    obtain ⟨k₀, v₀⟩ := hd
    by_cases hk : k₀ = k <;> simp_all [lookupA]

theorem mem_setA {l : List (Str × α)} {k : Str} {v : α} {x : Str × α}
    (h : x ∈ setA l k v) : x = (k, v) ∨ x ∈ l := by
  induction l with
  | nil => simpa [setA] using h
  | cons hd t ih =>
    obtain ⟨k₀, v₀⟩ := hd
    by_cases hk : k₀ = k
    · subst hk
      rcases (by simpa [setA] using h : x = (k₀, v) ∨ x ∈ t) with h' | h'
      · exact Or.inl h'
      · exact Or.inr (List.mem_cons_of_mem _ h')
    · rcases (by simpa [setA, hk] using h : x = (k₀, v₀) ∨ x ∈ setA t k v) with h' | h'
      · exact Or.inr (by simp [h'])
      · rcases ih h' with h'' | h''
        · exact Or.inl h''
        · exact Or.inr (List.mem_cons_of_mem _ h'')

theorem mem_eraseA {l : List (Str × α)} {k : Str} {x : Str × α}
    (h : x ∈ eraseA l k) : x ∈ l := by
  induction l with
  | nil => simpa [eraseA] using h
  | cons hd t ih =>
    obtain ⟨k₀, v₀⟩ := hd
    by_cases hk : k₀ = k
    · exact List.mem_cons_of_mem _ (by simpa [eraseA, hk] using h)
    · rcases (by simpa [eraseA, hk] using h : x = (k₀, v₀) ∨ x ∈ eraseA t k) with h' | h'
      · simp [h']
      · exact List.mem_cons_of_mem _ (ih h')

theorem map_fst_setA_of_some (l : List (Str × α)) (k : Str) (v : α)
    (h : (lookupA l k).isSome) : (setA l k v).map Prod.fst = l.map Prod.fst := by
  induction l with
  | nil => simp [lookupA] at h
  | cons hd t ih =>
    obtain ⟨k₀, v₀⟩ := hd
    by_cases hk : k₀ = k <;> simp_all [setA, lookupA]

theorem map_fst_setA_of_none (l : List (Str × α)) (k : Str) (v : α)
    (h : lookupA l k = none) : (setA l k v).map Prod.fst = l.map Prod.fst ++ [k] := by
  induction l with
  | nil => simp [setA]
  | cons hd t ih =>
    obtain ⟨k₀, v₀⟩ := hd
    by_cases hk : k₀ = k <;> simp_all [setA, lookupA]

theorem map_fst_eraseA_sublist (l : List (Str × α)) (k : Str) :
    ((eraseA l k).map Prod.fst).Sublist (l.map Prod.fst) := by
  induction l with
  | nil => simp [eraseA]
  | cons hd t ih =>
    obtain ⟨k₀, v₀⟩ := hd
    by_cases hk : k₀ = k
    · simp only [eraseA, if_pos hk, List.map_cons]
      exact List.sublist_cons_self _ _
    · simp only [eraseA, if_neg hk, List.map_cons]
      exact ih.cons₂ k₀

theorem lookupA_eq_none_of_not_mem (l : List (Str × α)) (k : Str)
    (h : k ∉ l.map Prod.fst) : lookupA l k = none := by
  induction l with
  | nil => rfl
  | cons hd t ih =>
    obtain ⟨k₀, v₀⟩ := hd
    simp only [List.map_cons, List.mem_cons] at h
    push_neg at h
    simp only [lookupA, if_neg (Ne.symm h.1)]
    exact ih h.2

theorem lookupA_eraseA_self (l : List (Str × α)) (k : Str)
    (h : (l.map Prod.fst).Nodup) : lookupA (eraseA l k) k = none := by
  induction l with
  | nil => simp [eraseA, lookupA]
  | cons hd t ih =>
    obtain ⟨k₀, v₀⟩ := hd
    simp only [List.map_cons, List.nodup_cons] at h
    by_cases hk : k₀ = k
    · subst hk
      simp only [eraseA, if_pos rfl]
      exact lookupA_eq_none_of_not_mem t k₀ h.1
    · simp only [eraseA, if_neg hk, lookupA, if_neg hk]
      exact ih h.2

theorem lookupA_isSome_of_mem {l : List (Str × α)} {k : Str} {v : α}
    (h : (k, v) ∈ l) : (lookupA l k).isSome := by
  induction l with
  | nil => simp at h
  | cons hd t ih =>
    obtain ⟨k₀, v₀⟩ := hd
    by_cases hk : k₀ = k
    · simp [lookupA, hk]
    · rcases List.mem_cons.1 h with h' | h'
      · cases h'
        simp at hk
      · simp only [lookupA, if_neg hk]
        exact ih h'

theorem mem_of_lookupA_eq_some {l : List (Str × α)} {k : Str} {v : α}
    (h : lookupA l k = some v) : (k, v) ∈ l := by
  induction l with
  | nil => simp [lookupA] at h
  | cons hd t ih =>
    obtain ⟨k₀, v₀⟩ := hd
    by_cases hk : k₀ = k
    · subst hk
      have h' : v₀ = v := by simpa [lookupA] using h
      subst h'
      exact List.mem_cons_self _ _
    · simp only [lookupA, if_neg hk] at h
      exact List.mem_cons_of_mem _ (ih h)

end AssocLemmas

section StringLemmas

theorem findChar_eq_some_zero_iff (c : Char) (l : Str) :
    findChar c l = some 0 ↔ l.head? = some c := by
  cases l with
  | nil => simp [findChar]
  | cons a t =>
    by_cases h : a = c
    · simp [findChar, h]
    · simp only [findChar, if_neg h, List.head?_cons]
      constructor
      · intro h'
        cases hfc : findChar c t <;> rw [hfc] at h' <;> simp at h'
      · intro h'
        injection h' with h''
        exact absurd h'' h

theorem findChar_eq_none_iff (c : Char) (l : Str) :
    findChar c l = none ↔ c ∉ l := by
  induction l with
  | nil => simp [findChar]
  | cons a t ih =>
    by_cases h : a = c
    · simp [findChar, h]
    · simp [findChar, h, Option.map_eq_none', ih, Ne.symm h]

theorem findChar_append_left (c : Char) (a b : Str) (i : Nat)
    (h : findChar c a = some i) : findChar c (a ++ b) = some i := by
  induction a generalizing i with
  | nil => simp [findChar] at h
  | cons x t ih =>
    rw [List.cons_append]
    by_cases hx : x = c
    · simp only [findChar, if_pos hx] at h ⊢
      exact h
    · simp only [findChar, if_neg hx] at h ⊢
      cases hfc : findChar c t with
      | none => rw [hfc] at h; simp at h
      | some n =>
        rw [hfc] at h
        rw [ih n hfc]
        exact h

theorem findChar_append_right (c : Char) (a b : Str) (h : findChar c a = none) :
    findChar c (a ++ b) = (findChar c b).map (a.length + ·) := by
  induction a with
  | nil =>
    simp only [List.nil_append, List.length_nil]
    cases hfc : findChar c b <;> simp [hfc]
  | cons x t ih =>
    rw [List.cons_append]
    by_cases hx : x = c
    · simp [findChar, hx] at h
    · simp only [findChar, if_neg hx, Option.map_eq_none'] at h
      simp only [findChar, if_neg hx, ih h]
      cases findChar c b with
      | none => simp
      | some n =>
        simp only [Option.map_some', List.length_cons, Option.some.injEq]
        omega

theorem findChar_mem_of_eq_some (c : Char) (l : Str) (i : Nat)
    (h : findChar c l = some i) : c ∈ l := by
  by_contra hmem
  rw [(findChar_eq_none_iff c l).2 hmem] at h
  exact Option.noConfusion h

theorem findChar_lt_length (c : Char) (l : Str) (i : Nat)
    (h : findChar c l = some i) : i < l.length := by
  induction l generalizing i with
  | nil => simp [findChar] at h
  | cons x t ih =>
    by_cases hx : x = c
    · simp only [findChar, if_pos hx, Option.some.injEq] at h
      simp [← h]
    · simp only [findChar, if_neg hx] at h
      cases hfc : findChar c t with
      | none => rw [hfc] at h; simp at h
      | some n =>
        rw [hfc] at h
        simp only [Option.map_some', Option.some.injEq] at h
        have := ih n hfc
        simp only [List.length_cons]
        omega

theorem findChar_getElem (c : Char) (l : Str) (i : Nat)
    (h : findChar c l = some i) : l[i]? = some c := by
  induction l generalizing i with
  | nil => simp [findChar] at h
  | cons x t ih =>
    by_cases hx : x = c
    · simp only [findChar, if_pos hx, Option.some.injEq] at h
      subst hx
      simp [← h]
    · simp only [findChar, if_neg hx] at h
      cases hfc : findChar c t with
      | none => rw [hfc] at h; simp at h
      | some n =>
        rw [hfc] at h
        simp only [Option.map_some', Option.some.injEq] at h
        subst h
        simpa using ih n hfc

theorem findChar_take_not_mem (c : Char) (l : Str) (i : Nat)
    (h : findChar c l = some i) : c ∉ l.take i := by
  induction l generalizing i with
  | nil => simp [findChar] at h
  | cons x t ih =>
    by_cases hx : x = c
    · simp only [findChar, if_pos hx, Option.some.injEq] at h
      simp [← h]
    · simp only [findChar, if_neg hx] at h
      cases hfc : findChar c t with
      | none => rw [hfc] at h; simp at h
      | some n =>
        rw [hfc] at h
        simp only [Option.map_some', Option.some.injEq] at h
        subst h
        simp only [List.take_succ_cons, List.mem_cons, not_or]
        exact ⟨Ne.symm hx, ih n hfc⟩

/-- `"[]"` does not occur in a string iff no `[` is immediately followed
by `]`; we only ever need the two concatenation-compatibility lemmas. -/
theorem findSub_eq_none_iff (pat l : Str) :
    findSub pat l = none ↔ ∀ i, ¬ pat.isPrefixOf (l.drop i) := by
  induction l with
  | nil =>
    simp only [findSub, List.drop_nil]
    constructor
    · intro h i
      by_cases hpp : pat.isPrefixOf ([] : Str)
      · rw [if_pos hpp] at h; exact Option.noConfusion h
      · exact fun hc => hpp hc
    · intro h
      rw [if_neg (h 0)]
  | cons a t ih =>
    by_cases hpp : pat.isPrefixOf (a :: t)
    · simp only [findSub, if_pos hpp]
      constructor
      · intro h; exact Option.noConfusion h
      · intro h; exact absurd hpp (by simpa using h 0)
    · simp only [findSub, if_neg hpp, Option.map_eq_none', ih]
      constructor
      · intro h i
        cases i with
        | zero => simpa using hpp
        | succ n => simpa using h n
      · intro h i
        simpa using h (i + 1)

end StringLemmas

section TrimLemmas

theorem dropWhile_space_eq_self {s : Str} (hh : s.head? ≠ some ' ') :
    s.dropWhile (· == ' ') = s := by
  cases s with
  | nil => rfl
  | cons a t =>
    have ha : (a == ' ') = false := by
      simp only [List.head?_cons, ne_eq, Option.some.injEq] at hh
      simpa using hh
    simp [List.dropWhile_cons, ha]

theorem not_all_space_of_trimmed {s : Str} (h : Trimmed s) : s.all (· == ' ') = false := by
  obtain ⟨hne, hh, -⟩ := h
  cases s with
  | nil => exact absurd rfl hne
  | cons a t =>
    have ha : (a == ' ') = false := by
      simp only [List.head?_cons, ne_eq, Option.some.injEq] at hh
      simpa using hh
    simp [List.all_cons, ha]

theorem trim_of_trimmed {s : Str} (h : Trimmed s) : trim s = s := by
  obtain ⟨hne, hh, hl⟩ := h
  unfold trim
  rw [dropWhile_space_eq_self hh]
  rw [dropWhile_space_eq_self (by rw [List.head?_reverse]; exact hl)]
  exact List.reverse_reverse s

theorem strip_of_trimmed {s : Str} (h : Trimmed s) : strip s = .ok s := by
  rw [strip, if_neg (by simp [not_all_space_of_trimmed h]), trim_of_trimmed h]

theorem trim_cons_space (s : Str) : trim (' ' :: s) = trim s := by
  simp [trim, List.dropWhile_cons]

theorem strip_cons_space {s : Str} (h : Trimmed s) : strip (' ' :: s) = .ok s := by
  have hall : ((' ' :: s).all (· == ' ')) = false := by
    simp [List.all_cons, not_all_space_of_trimmed h]
  rw [strip, if_neg (by simp [hall]), trim_cons_space, trim_of_trimmed h]

theorem trim_append_space (s : Str) : trim (s ++ [' ']) = trim s := by
  unfold trim
  rw [List.dropWhile_append]
  cases hd : (s.dropWhile (· == ' ')).isEmpty with
  | true =>
    have h0 : s.dropWhile (· == ' ') = [] := by
      cases hsd : s.dropWhile (· == ' ') with
      | nil => rfl
      | cons a t => rw [hsd] at hd; simp at hd
    simp [h0]
  | false =>
    simp only [Bool.false_eq_true, if_false, List.reverse_append, List.reverse_cons,
      List.reverse_nil, List.nil_append, List.singleton_append]
    rw [List.dropWhile_cons_of_pos (by simp)]

theorem strip_append_space {s : Str} (h : Trimmed s) : strip (s ++ [' ']) = .ok s := by
  have hall : ((s ++ [' ']).all (· == ' ')) = false := by
    rw [List.all_append]
    simp [not_all_space_of_trimmed h]
  rw [strip, if_neg (by simp [hall]), trim_append_space, trim_of_trimmed h]

theorem mem_dropWhile_space_of_ne {c : Char} {s : Str} (hc : c ≠ ' ') (hm : c ∈ s) :
    c ∈ s.dropWhile (· == ' ') := by
  induction s with
  | nil => simp at hm
  | cons a t ih =>
    by_cases ha : a = ' '
    · subst ha
      rw [List.dropWhile_cons_of_pos (by simp)]
      rcases List.mem_cons.1 hm with h' | h'
      · exact absurd h' hc
      · exact ih h'
    · rw [List.dropWhile_cons_of_neg (by simpa using ha)]
      exact hm

theorem mem_trim_of_ne_space {c : Char} {s : Str} (hc : c ≠ ' ') (hm : c ∈ s) :
    c ∈ trim s := by
  unfold trim
  rw [List.mem_reverse]
  apply mem_dropWhile_space_of_ne hc
  rw [List.mem_reverse]
  exact mem_dropWhile_space_of_ne hc hm

theorem mem_of_mem_trim {c : Char} {s : Str} (hm : c ∈ trim s) : c ∈ s := by
  unfold trim at hm
  rw [List.mem_reverse] at hm
  have hm2 := (List.dropWhile_sublist _).subset hm
  rw [List.mem_reverse] at hm2
  exact (List.dropWhile_sublist _).subset hm2

theorem exists_ne_space_of_not_all {s : Str} (h : s.all (· == ' ') = false) :
    ∃ c ∈ s, c ≠ ' ' := by
  by_contra hc
  push_neg at hc
  have : s.all (· == ' ') = true := by
    rw [List.all_eq_true]
    intro x hx
    simpa using hc x hx
  rw [this] at h
  exact Bool.noConfusion h

theorem trimmed_trim {s : Str} (h : s.all (· == ' ') = false) : Trimmed (trim s) := by
  have hd : s.dropWhile (· == ' ') ≠ [] := by
    intro h0
    have hall : s.all (· == ' ') = true := by
      rw [List.all_eq_true]
      exact fun x hx => List.dropWhile_eq_nil_iff.1 h0 x hx
    rw [hall] at h
    exact Bool.noConfusion h
  have hdh : ((s.dropWhile (· == ' ')).head hd == ' ') = false :=
    List.head_dropWhile_not _ s hd
  have hr : (s.dropWhile (· == ' ')).reverse.dropWhile (· == ' ') ≠ [] := by
    intro h0
    have hmem : (s.dropWhile (· == ' ')).head hd ∈ (s.dropWhile (· == ' ')).reverse := by
      rw [List.mem_reverse]
      exact List.head_mem hd
    have hsp := List.dropWhile_eq_nil_iff.1 h0 _ hmem
    rw [hsp] at hdh
    exact Bool.noConfusion hdh
  refine ⟨?_, ?_, ?_⟩
  · unfold trim
    simpa using hr
  · unfold trim
    rw [List.head?_reverse]
    obtain ⟨pre, hpre⟩ := List.dropWhile_suffix (l := (s.dropWhile (· == ' ')).reverse) (· == ' ')
    have h2 : (pre ++ (s.dropWhile (· == ' ')).reverse.dropWhile (· == ' ')).getLast?
        = ((s.dropWhile (· == ' ')).reverse.dropWhile (· == ' ')).getLast? :=
      List.getLast?_append_of_ne_nil pre hr
    rw [hpre] at h2
    rw [← h2, List.getLast?_reverse, List.head?_eq_head hd]
    intro hcon
    injection hcon with hc
    rw [hc] at hdh
    simp at hdh
  · unfold trim
    rw [List.getLast?_reverse, List.head?_eq_head hr]
    intro hcon
    injection hcon with hc
    have hnot := List.head_dropWhile_not (· == ' ') _ hr
    rw [hc] at hnot
    simp at hnot

end TrimLemmas

section BracketLemmas

theorem findSub_eq_some_iff (pat l : Str) (i : Nat) :
    findSub pat l = some i ↔
      pat.isPrefixOf (l.drop i) ∧ ∀ j, j < i → ¬ pat.isPrefixOf (l.drop j) := by
  induction l generalizing i with
  | nil =>
    simp only [findSub, List.drop_nil]
    by_cases hp : pat.isPrefixOf ([] : Str)
    · rw [if_pos hp]
      constructor
      · intro h
        injection h with h
        subst h
        exact ⟨hp, by omega⟩
      · rintro ⟨h1, h2⟩
        cases i with
        | zero => rfl
        | succ n => exact absurd hp (h2 0 (Nat.succ_pos n))
    · rw [if_neg hp]
      constructor
      · intro h
        exact Option.noConfusion h
      · rintro ⟨h1, -⟩
        exact absurd h1 hp
  | cons a t ih =>
    by_cases hp : pat.isPrefixOf (a :: t)
    · simp only [findSub, if_pos hp]
      constructor
      · intro h
        injection h with h
        subst h
        exact ⟨by simpa using hp, by omega⟩
      · rintro ⟨h1, h2⟩
        cases i with
        | zero => rfl
        | succ n => exact absurd (by simpa using hp) (h2 0 (Nat.succ_pos n))
    · simp only [findSub, if_neg hp]
      constructor
      · intro h
        rcases Option.map_eq_some'.1 h with ⟨n, hn, rfl⟩
        rcases (ih n).1 hn with ⟨h1, h2⟩
        refine ⟨by simpa using h1, ?_⟩
        intro j hj
        cases j with
        | zero => simpa using hp
        | succ m => simpa using h2 m (by omega)
      · rintro ⟨h1, h2⟩
        cases i with
        | zero => exact absurd (by simpa using h1) hp
        | succ n =>
          have hrec : findSub pat t = some n :=
            (ih n).2 ⟨by simpa using h1, fun j hj => by simpa using h2 (j + 1) (by omega)⟩
          rw [hrec]
          rfl

theorem brackets_isPrefixOf_iff (l : Str) :
    brackets.isPrefixOf l = true ↔ l[0]? = some '[' ∧ l[1]? = some ']' := by
  cases l with
  | nil => simp [brackets, List.isPrefixOf]
  | cons a t =>
    cases t with
    | nil => simp [brackets, List.isPrefixOf]
    | cons b t' =>
      by_cases ha : a = '['
      · by_cases hb : b = ']'
        · subst ha
          subst hb
          simp [brackets, List.isPrefixOf]
        · have hb' : (']' == b) = false := by simp [Ne.symm hb]
          constructor
          · intro hcon
            simp [brackets, List.isPrefixOf, hb'] at hcon
          · rintro ⟨-, hcon⟩
            simp only [List.getElem?_cons_succ, List.getElem?_cons_zero,
              Option.some.injEq] at hcon
            exact absurd hcon hb
      · have ha' : ('[' == a) = false := by simp [Ne.symm ha]
        constructor
        · intro hcon
          simp [brackets, List.isPrefixOf, ha'] at hcon
        · rintro ⟨hcon, -⟩
          simp only [List.getElem?_cons_zero, Option.some.injEq] at hcon
          exact absurd hcon ha

theorem brackets_isPrefixOf_drop_iff (l : Str) (j : Nat) :
    brackets.isPrefixOf (l.drop j) = true ↔ (l[j]? = some '[' ∧ l[j + 1]? = some ']') := by
  rw [brackets_isPrefixOf_iff, List.getElem?_drop, List.getElem?_drop, Nat.add_zero]

/-- `"[]"` occurs nowhere iff no `[` is immediately followed by `]`. -/
theorem findSub_brackets_eq_none_iff (l : Str) :
    findSub brackets l = none ↔ ∀ i, ¬ (l[i]? = some '[' ∧ l[i + 1]? = some ']') := by
  rw [findSub_eq_none_iff]
  constructor
  · intro h i hc
    exact h i ((brackets_isPrefixOf_drop_iff l i).2 hc)
  · intro h i hc
    exact h i ((brackets_isPrefixOf_drop_iff l i).1 hc)

theorem findSub_brackets_eq_some_iff (l : Str) (i : Nat) :
    findSub brackets l = some i ↔
      (l[i]? = some '[' ∧ l[i + 1]? = some ']')
      ∧ ∀ j, j < i → ¬ (l[j]? = some '[' ∧ l[j + 1]? = some ']') := by
  rw [findSub_eq_some_iff]
  constructor
  · rintro ⟨h1, h2⟩
    exact ⟨(brackets_isPrefixOf_drop_iff l i).1 h1,
      fun j hj hc => h2 j hj ((brackets_isPrefixOf_drop_iff l j).2 hc)⟩
  · rintro ⟨h1, h2⟩
    exact ⟨(brackets_isPrefixOf_drop_iff l i).2 h1,
      fun j hj hc => h2 j hj ((brackets_isPrefixOf_drop_iff l j).1 hc)⟩

theorem getElem_qualified_left (s w : Str) (i : Nat) (h : i < s.length) :
    (s ++ '/' :: w)[i]? = s[i]? :=
  List.getElem?_append_left h

theorem getElem_qualified_mid (s w : Str) :
    (s ++ '/' :: w)[s.length]? = some '/' := by
  rw [List.getElem?_append_right (Nat.le_refl _)]
  simp

theorem getElem_qualified_right (s w : Str) (i : Nat) (h : s.length < i) :
    (s ++ '/' :: w)[i]? = w[i - s.length - 1]? := by
  rcases Nat.exists_eq_add_of_lt h with ⟨m, rfl⟩
  rw [List.getElem?_append_right (by omega)]
  have e1 : s.length + m + 1 - s.length = m + 1 := by omega
  have e2 : s.length + m + 1 - s.length - 1 = m := by omega
  rw [e2, e1, List.getElem?_cons_succ]

/-- Concatenating a bracket-free section, `/`, and a bracket-free tail gives
a bracket-free string (the `/` glue cannot create a `"[]"`). -/
theorem findSub_brackets_qualified_none (s w : Str)
    (hs : findSub brackets s = none) (hw : findSub brackets w = none) :
    findSub brackets (s ++ '/' :: w) = none := by
  rw [findSub_brackets_eq_none_iff] at hs hw ⊢
  intro i hcon
  rcases Nat.lt_trichotomy i s.length with hi | hi | hi
  · rcases Nat.lt_trichotomy (i + 1) s.length with hi1 | hi1 | hi1
    · exact hs i ⟨(getElem_qualified_left s w i hi).symm.trans hcon.1,
        (getElem_qualified_left s w (i + 1) hi1).symm.trans hcon.2⟩
    · have h2 := getElem_qualified_mid s w
      rw [← hi1] at h2
      have := h2.symm.trans hcon.2
      exact absurd this.symm (by simp)
    · omega
  · subst hi
    have := (getElem_qualified_mid s w).symm.trans hcon.1
    exact absurd this.symm (by simp)
  · have h1 := getElem_qualified_right s w i hi
    have h2 := getElem_qualified_right s w (i + 1) (by omega)
    have e : i + 1 - s.length - 1 = (i - s.length - 1) + 1 := by omega
    rw [e] at h2
    exact hw (i - s.length - 1) ⟨h1.symm.trans hcon.1, h2.symm.trans hcon.2⟩

/-- In `section/key[]` with bracket-free `section` and `key`, the first
`"[]"` occurrence is exactly the trailing suffix. -/
theorem findSub_brackets_qualified_suffix (s k : Str)
    (hs : findSub brackets s = none) (hk : findSub brackets k = none) :
    findSub brackets (s ++ '/' :: (k ++ brackets)) = some (s.length + 1 + k.length) := by
  rw [findSub_brackets_eq_some_iff]
  rw [findSub_brackets_eq_none_iff] at hs hk
  refine ⟨⟨?_, ?_⟩, ?_⟩
  · have h1 := getElem_qualified_right s (k ++ brackets) (s.length + 1 + k.length) (by omega)
    have e : s.length + 1 + k.length - s.length - 1 = k.length := by omega
    rw [e] at h1
    rw [h1, List.getElem?_append_right (Nat.le_refl _)]
    simp [brackets]
  · have h1 := getElem_qualified_right s (k ++ brackets) (s.length + 1 + k.length + 1) (by omega)
    have e : s.length + 1 + k.length + 1 - s.length - 1 = k.length + 1 := by omega
    rw [e] at h1
    rw [h1, List.getElem?_append_right (by omega)]
    have e2 : k.length + 1 - k.length = 1 := by omega
    rw [e2]
    simp [brackets]
  · intro j hj hcon
    rcases Nat.lt_trichotomy j s.length with hjs | hjs | hjs
    · rcases Nat.lt_trichotomy (j + 1) s.length with hj1 | hj1 | hj1
      · exact hs j ⟨(getElem_qualified_left s _ j hjs).symm.trans hcon.1,
          (getElem_qualified_left s _ (j + 1) hj1).symm.trans hcon.2⟩
      · have h2 := getElem_qualified_mid s (k ++ brackets)
        rw [← hj1] at h2
        have := h2.symm.trans hcon.2
        exact absurd this.symm (by simp)
      · omega
    · subst hjs
      have := (getElem_qualified_mid s (k ++ brackets)).symm.trans hcon.1
      exact absurd this.symm (by simp)
    · have h1 := getElem_qualified_right s (k ++ brackets) j hjs
      have h2 := getElem_qualified_right s (k ++ brackets) (j + 1) (by omega)
      have e : j + 1 - s.length - 1 = (j - s.length - 1) + 1 := by omega
      rw [e] at h2
      have hmk : j - s.length - 1 < k.length := by omega
      have h1' : (k ++ brackets)[j - s.length - 1]? = k[j - s.length - 1]? :=
        List.getElem?_append_left hmk
      rcases Nat.lt_or_ge ((j - s.length - 1) + 1) k.length with hk1 | hk1
      · have h2' : (k ++ brackets)[(j - s.length - 1) + 1]? = k[(j - s.length - 1) + 1]? :=
          List.getElem?_append_left hk1
        exact hk (j - s.length - 1)
          ⟨h1'.symm.trans (h1.symm.trans hcon.1), h2'.symm.trans (h2.symm.trans hcon.2)⟩
      · have hkeq : (j - s.length - 1) + 1 = k.length := by omega
        have h2' : (k ++ brackets)[(j - s.length - 1) + 1]? = some '[' := by
          rw [hkeq, List.getElem?_append_right (Nat.le_refl _)]
          simp [brackets]
        have hcontr := (h2.symm.trans hcon.2).symm.trans h2'
        exact absurd hcontr (by simp)

theorem getArrayName_of_none {n : Str} (h : findSub brackets n = none) :
    getArrayName n = n := by
  unfold getArrayName
  rw [h]

theorem getArrayName_qualified_suffix (s k : Str)
    (hs : findSub brackets s = none) (hk : findSub brackets k = none) :
    getArrayName (s ++ ['/'] ++ (k ++ brackets)) = s ++ ['/'] ++ k := by
  have hshape : s ++ ['/'] ++ (k ++ brackets) = s ++ '/' :: (k ++ brackets) := by simp
  unfold getArrayName
  rw [hshape, findSub_brackets_qualified_suffix s k hs hk]
  show (s ++ '/' :: (k ++ brackets)).take (s.length + 1 + k.length) = s ++ ['/'] ++ k
  have harith : s.length + 1 + k.length = s.length + (1 + k.length) := by omega
  rw [harith, List.take_append]
  have h2 : ('/' :: (k ++ brackets)).take (1 + k.length)
      = '/' :: (k ++ brackets).take k.length := by
    have h1 : 1 + k.length = k.length + 1 := by omega
    rw [h1, List.take_succ_cons]
  rw [h2, List.take_left k brackets]
  simp

theorem getArrayName_qualified_none (s w : Str)
    (hs : findSub brackets s = none) (hw : findSub brackets w = none) :
    getArrayName (s ++ ['/'] ++ w) = s ++ ['/'] ++ w := by
  apply getArrayName_of_none
  have hshape : s ++ ['/'] ++ w = s ++ '/' :: w := by simp
  rw [hshape]
  exact findSub_brackets_qualified_none s w hs hw

end BracketLemmas

section StoreLemmas

theorem lookupA_bset_self_isSome (d : Doc) (s k v : Str) :
    (lookupA (bset d s k v) s).isSome := by
  unfold bset
  cases hl : lookupA d s with
  | none =>
    rw [lookupA_append_of_none _ _ _ hl]
    simp [lookupA]
  | some kvs => simp [lookupA_setA_self]

theorem lookupA_bset_ne (d : Doc) (s k v s' : Str) (h : s' ≠ s) :
    lookupA (bset d s k v) s' = lookupA d s' := by
  unfold bset
  cases hl : lookupA d s with
  | none =>
    cases hl' : lookupA d s' with
    | none =>
      rw [lookupA_append_of_none _ _ _ hl']
      simp [lookupA, Ne.symm h]
    | some kvs' => rw [lookupA_append_of_some _ _ _ _ hl']
  | some kvs => exact lookupA_setA_ne _ _ _ _ h

theorem bget_bset_self (d : Doc) (s k v : Str) : bget (bset d s k v) s k = some v := by
  unfold bget bset
  cases hl : lookupA d s with
  | none =>
    rw [lookupA_append_of_none _ _ _ hl]
    simp [lookupA]
  | some kvs => simp [lookupA_setA_self]

theorem bget_bset_ne_sec (d : Doc) (s k v s' k' : Str) (h : s' ≠ s) :
    bget (bset d s k v) s' k' = bget d s' k' := by
  unfold bget
  rw [lookupA_bset_ne _ _ _ _ _ h]

theorem bget_bset_same_sec_ne (d : Doc) (s k v k' : Str) (h : k' ≠ k) :
    bget (bset d s k v) s k' = bget d s k' := by
  unfold bget bset
  cases hl : lookupA d s with
  | none =>
    rw [lookupA_append_of_none _ _ _ hl]
    simp [lookupA, Ne.symm h]
  | some kvs =>
    rw [lookupA_setA_self]
    simp [lookupA_setA_ne _ _ _ _ h]

theorem include'_no_slash (d : Doc) (s : Str) (hs : findChar '/' s = none) :
    include' d s = (lookupA d s).isSome := by
  unfold include'
  rw [hs]

theorem append_slash_eq (s k : Str) : s ++ ['/'] ++ k = s ++ ('/' :: k) := by
  simp

theorem findChar_slash_qualified (s k : Str) (hs : findChar '/' s = none) :
    findChar '/' (s ++ ['/'] ++ k) = some s.length := by
  rw [append_slash_eq, findChar_append_right _ _ _ hs]
  simp [findChar]

theorem take_qualified (s k : Str) : (s ++ ['/'] ++ k).take s.length = s := by
  rw [append_slash_eq]
  exact List.take_left s ('/' :: k)

theorem drop_qualified (s k : Str) : (s ++ ['/'] ++ k).drop (s.length + 1) = k := by
  have h : s.length + 1 = (s ++ ['/']).length := by simp
  rw [h, List.drop_left]

theorem lookupA_aset_self (a : List (Str × List Str)) (p : Str) (es : List Str) :
    lookupA (aset a p es) p = some es := by
  unfold aset
  cases hl : lookupA a p with
  | none =>
    rw [lookupA_append_of_none _ _ _ hl]
    simp [lookupA]
  | some es' => exact lookupA_setA_self _ _ _

theorem include'_qualified (d : Doc) (s k : Str) (hs : findChar '/' s = none) :
    include' d (s ++ ['/'] ++ k) = (bget d s k).isSome := by
  unfold include'
  rw [findChar_slash_qualified s k hs]
  simp only [take_qualified, drop_qualified, bget]
  cases lookupA d s <;> simp

end StoreLemmas

section InvariantLemmas

theorem setA_ne_nil {α : Type} (l : List (Str × α)) (k : Str) (v : α) :
    setA l k v ≠ [] := by
  cases l with
  | nil => simp [setA]
  | cons hd t =>
    obtain ⟨k0, v0⟩ := hd
    by_cases h : k0 = k <;> simp [setA, h]

theorem not_mem_keys_of_lookupA_none {α : Type} {l : List (Str × α)} {k : Str}
    (h : lookupA l k = none) : k ∉ l.map Prod.fst := by
  intro hm
  rcases List.mem_map.1 hm with ⟨⟨k', v⟩, hmem, hk⟩
  cases hk
  have := lookupA_isSome_of_mem hmem
  rw [h] at this
  simp at this

theorem bset_preserves (d : Doc) (s k v : Str) (h : DocWF d) :
    DocWF (bset d s k v) := by
  obtain ⟨h1, h2, h3⟩ := h
  unfold bset
  cases hl : lookupA d s with
  | none =>
    refine ⟨?_, ?_, ?_⟩
    · intro s' kvs' hm
      rcases List.mem_append.1 hm with hm | hm
      · exact h1 s' kvs' hm
      · have : (s', kvs') = (s, [(k, v)]) := by simpa using hm
        injection this with e1 e2
        rw [e2]
        simp
    · rw [List.map_append]
      rw [List.nodup_append]
      refine ⟨h2, by simp, ?_⟩
      intro a ha hb
      have : a = s := by simpa using hb
      subst this
      exact not_mem_keys_of_lookupA_none hl ha
    · intro s' kvs' hm
      rcases List.mem_append.1 hm with hm | hm
      · exact h3 s' kvs' hm
      · have : (s', kvs') = (s, [(k, v)]) := by simpa using hm
        injection this with e1 e2
        rw [e2]
        simp
  | some kvs =>
    have hknodup : ((setA kvs k v).map Prod.fst).Nodup := by
      have hkv := h3 s kvs (mem_of_lookupA_eq_some hl)
      cases hkl : lookupA kvs k with
      | none =>
        rw [map_fst_setA_of_none _ _ _ hkl, List.nodup_append]
        exact ⟨hkv, by simp, fun a ha hb => by
          have : a = k := by simpa using hb
          subst this
          exact not_mem_keys_of_lookupA_none hkl ha⟩
      | some v' =>
        rw [map_fst_setA_of_some _ _ _ (by simp [hkl])]
        exact hkv
    refine ⟨?_, ?_, ?_⟩
    · intro s' kvs' hm
      rcases mem_setA hm with hm | hm
      · injection hm with e1 e2
        rw [e2]
        exact setA_ne_nil _ _ _
      · exact h1 _ _ hm
    · rw [map_fst_setA_of_some _ _ _ (by simp [hl])]
      exact h2
    · intro s' kvs' hm
      rcases mem_setA hm with hm | hm
      · injection hm with e1 e2
        rw [e2]
        exact hknodup
      · exact h3 _ _ hm

theorem eraseOrSet_preserves (d : Doc) (s kk : Str) (h : DocWF d) :
    DocWF (if eraseA ((lookupA d s).getD []) kk = [] then eraseA d s
        else setA d s (eraseA ((lookupA d s).getD []) kk)) := by
  obtain ⟨h1, h2, h3⟩ := h
  by_cases hin : eraseA ((lookupA d s).getD []) kk = []
  · rw [if_pos hin]
    refine ⟨?_, ?_, ?_⟩
    · intro s' kvs' hm
      exact h1 s' kvs' (mem_eraseA hm)
    · exact (map_fst_eraseA_sublist d s).nodup h2
    · intro s' kvs' hm
      exact h3 s' kvs' (mem_eraseA hm)
  · rw [if_neg hin]
    have hlook : ∃ kvs, lookupA d s = some kvs := by
      cases hl : lookupA d s with
      | none =>
        rw [hl] at hin
        simp [eraseA] at hin
      | some kvs => exact ⟨kvs, rfl⟩
    obtain ⟨kvs, hl⟩ := hlook
    rw [hl] at hin ⊢
    refine ⟨?_, ?_, ?_⟩
    · intro s' kvs' hm
      rcases mem_setA hm with hm | hm
      · injection hm with e1 e2
        rw [e2]
        exact hin
      · exact h1 _ _ hm
    · rw [map_fst_setA_of_some _ _ _ (by simp [hl])]
      exact h2
    · intro s' kvs' hm
      rcases mem_setA hm with hm | hm
      · injection hm with e1 e2
        rw [e2]
        exact ((map_fst_eraseA_sublist kvs kk).nodup
          (h3 s kvs (mem_of_lookupA_eq_some hl)))
      · exact h3 _ _ hm

theorem removeKey_preserves (d : Doc) (s k : Str) (d' : Doc)
    (h : removeKey d s k = .ok d') (hwf : DocWF d) : DocWF d' := by
  unfold removeKey at h
  split at h
  · injection h with h
    subst h
    exact eraseOrSet_preserves d s k hwf
  · exact absurd h (by simp)

theorem parseInlineX_builder_shape (st : StateX) (buf : Str) (st' : StateX)
    (h : parseInlineX st buf = .ok st') :
    st'.builder = st.builder ∨ ∃ key val, st'.builder = bset st.builder st.cur key val := by
  unfold parseInlineX at h
  split at h
  · injection h with h
    subst h
    left
    rfl
  · split at h
    · split at h
      · exact absurd h (by simp)
      · split at h
        · exact absurd h (by simp)
        · injection h with h
          subst h
          right
          exact ⟨_, _, rfl⟩
    · split at h
      · dsimp only at h
        split at h
        · injection h with h
          subst h
          left
          rfl
        · split at h
          · injection h with h
            subst h
            left
            rfl
          · injection h with h
            subst h
            left
            rfl
      · injection h with h
        subst h
        left
        rfl

/-- Every reachable state of the extended parser has a well-formed
document: no empty sections, unique section names, unique keys. -/
theorem reachX_invariant (st : StateX) (h : ReachX st) : DocWF st.builder := by
  induction h with
  | init =>
    refine ⟨?_, ?_, ?_⟩
    · intro s kvs hm
      simp [st0X] at hm
    · simp [st0X]
    · intro s kvs hm
      simp [st0X] at hm
  | addKey st s k v st' hr hok ih =>
    unfold addKeyX at hok
    cases haddk : addKey st.builder s k v with
    | error e =>
      rw [haddk] at hok
      exact absurd hok (by simp)
    | ok b' =>
      rw [haddk] at hok
      injection hok with hok
      subst hok
      have hb : b' = bset st.builder s k v := by
        unfold addKey at haddk
        split at haddk
        · exact absurd haddk (by simp)
        · split at haddk
          · injection haddk with h'
            exact h'.symm
          · split at haddk
            · injection haddk with h'
              exact h'.symm
            · exact absurd haddk (by simp)
      subst hb
      exact bset_preserves _ _ _ _ ih
  | removeKey st s k st' hr hok ih =>
    unfold removeKeyX at hok
    cases hrk : removeKey st.builder s k with
    | error e =>
      rw [hrk] at hok
      exact absurd hok (by simp)
    | ok b' =>
      rw [hrk] at hok
      injection hok with hok
      subst hok
      exact removeKey_preserves _ _ _ _ hrk ih
  | addArray st s k arr st' hr hok ih =>
    unfold addArray at hok
    dsimp only at hok
    split at hok
    · split at hok
      · exact absurd hok (by simp)
      · injection hok with hok
        subst hok
        exact bset_preserves _ _ _ _ ih
    · exact absurd hok (by simp)
  | removeArray st s k st' hr hok ih =>
    unfold removeArray at hok
    dsimp only at hok
    split at hok
    · injection hok with hok
      subst hok
      exact eraseOrSet_preserves _ _ _ ih
    · exact absurd hok (by simp)
  | parse st buf st' hr hok ih =>
    rcases parseInlineX_builder_shape st buf st' hok with h' | ⟨key, val, h'⟩
    · rw [h']
      exact ih
    · rw [h']
      exact bset_preserves _ _ _ _ ih

end InvariantLemmas

section BookkeepingLemmas

theorem mem_aset {a : List (Str × List Str)} {p : Str} {es : List Str}
    {x : Str × List Str} (h : x ∈ aset a p es) : x = (p, es) ∨ x ∈ a := by
  unfold aset at h
  split at h
  · rcases List.mem_append.1 h with h' | h'
    · exact Or.inr h'
    · exact Or.inl (by simpa using h')
  · exact (mem_setA h).imp id id

theorem mem_pushA {a : List (Str × List Str)} {p : Str} {v : Str}
    {x : Str × List Str} (h : x ∈ pushA a p v) : (∃ es, x = (p, es)) ∨ x ∈ a := by
  unfold pushA at h
  split at h
  · rcases List.mem_append.1 h with h' | h'
    · exact Or.inr h'
    · exact Or.inl ⟨[v], by simpa using h'⟩
  · rcases mem_setA h with h' | h'
    · exact Or.inl ⟨_, h'⟩
    · exact Or.inr h'

theorem map_fst_aset_nodup (a : List (Str × List Str)) (p : Str) (es : List Str)
    (h : (a.map Prod.fst).Nodup) : ((aset a p es).map Prod.fst).Nodup := by
  unfold aset
  split
  · rename_i hl
    rw [List.map_append, List.nodup_append]
    refine ⟨h, by simp, ?_⟩
    intro x hx hb
    have : x = p := by simpa using hb
    subst this
    exact not_mem_keys_of_lookupA_none hl hx
  · rename_i es' hl
    rw [map_fst_setA_of_some _ _ _ (by simp [hl])]
    exact h

theorem map_fst_pushA_nodup (a : List (Str × List Str)) (p : Str) (v : Str)
    (h : (a.map Prod.fst).Nodup) : ((pushA a p v).map Prod.fst).Nodup := by
  unfold pushA
  split
  · rename_i hl
    rw [List.map_append, List.nodup_append]
    refine ⟨h, by simp, ?_⟩
    intro x hx hb
    have : x = p := by simpa using hb
    subst this
    exact not_mem_keys_of_lookupA_none hl hx
  · rename_i es hl
    rw [map_fst_setA_of_some _ _ _ (by simp [hl])]
    exact h

theorem eraseA_eq_nil {α : Type} {l : List (Str × α)} {k : Str}
    (h : eraseA l k = []) : l = [] ∨ ∃ v, l = [(k, v)] := by
  cases l with
  | nil => exact Or.inl rfl
  | cons hd t =>
    obtain ⟨k0, v0⟩ := hd
    simp only [eraseA] at h
    split at h
    · rename_i hk
      subst h
      exact Or.inr ⟨v0, by rw [hk]⟩
    · exact absurd h (by simp)

theorem findSub_brackets_append_brackets (k : Str) :
    findSub brackets (k ++ brackets) ≠ none := by
  intro hcon
  rw [findSub_brackets_eq_none_iff] at hcon
  refine hcon k.length ⟨?_, ?_⟩
  · rw [List.getElem?_append_right (Nat.le_refl _)]
    simp [brackets]
  · rw [List.getElem?_append_right (by omega)]
    have e : k.length + 1 - k.length = 1 := by omega
    rw [e]
    simp [brackets]

theorem ne_suffixed_of_brackets_none {kk k' : Str} (h : findSub brackets kk = none) :
    kk ≠ k' ++ brackets := by
  intro he
  rw [he] at h
  exact findSub_brackets_append_brackets k' h

theorem findSub_brackets_take_none {K : Str} {pt : Nat}
    (h : findSub brackets K = some pt) : findSub brackets (K.take pt) = none := by
  rw [findSub_brackets_eq_some_iff] at h
  rw [findSub_brackets_eq_none_iff]
  intro j hcon
  have hj : j < pt := by
    by_contra hge
    push_neg at hge
    have hn : (K.take pt)[j]? = none :=
      List.getElem?_eq_none (by rw [List.length_take]; omega)
    rw [hn] at hcon
    exact Option.noConfusion hcon.1
  apply h.2 j hj
  constructor
  · have h1 := hcon.1
    rw [List.getElem?_take, if_pos hj] at h1
    exact h1
  · rcases Nat.lt_or_ge (j + 1) pt with hj1 | hj1
    · have h2 := hcon.2
      rw [List.getElem?_take, if_pos hj1] at h2
      exact h2
    · have hn : (K.take pt)[j + 1]? = none :=
        List.getElem?_eq_none (by rw [List.length_take]; omega)
      rw [hn] at hcon
      exact absurd hcon.2 (by simp)

theorem addKey_ok_shape {d : Doc} {s k v : Str} {d' : Doc}
    (h : addKey d s k v = .ok d') : d' = bset d s k v ∧ findSub brackets k = none := by
  unfold addKey at h
  split at h
  · exact absurd h (by simp)
  · rename_i hbr
    constructor
    · split at h
      · injection h with h'
        exact h'.symm
      · split at h
        · injection h with h'
          exact h'.symm
        · exact absurd h (by simp)
    · cases hfk : findSub brackets k with
      | none => rfl
      | some pt =>
        rw [hfk] at hbr
        simp at hbr

theorem addArray_ok_shape {st : StateX} {s k : Str} {arr : List Str} {st' : StateX}
    (hk : findSub brackets k = none) (h : addArray st s k arr = .ok st') :
    ∃ last, arr.getLast? = some last
      ∧ st' = { st with builder := bset st.builder s (k ++ brackets) last,
                        arrays := aset st.arrays (s ++ ['/'] ++ k) arr } := by
  unfold addArray at h
  rw [getArrayName_of_none hk] at h
  dsimp only at h
  split at h
  · split at h
    · exact absurd h (by simp)
    · rename_i last hlast
      injection h with h'
      exact ⟨last, hlast, h'.symm⟩
  · exact absurd h (by simp)

theorem removeArray_ok_shape {st : StateX} {s k : Str} {st' : StateX}
    (hk : findSub brackets k = none) (h : removeArray st s k = .ok st') :
    st' = { st with
        arrays := eraseA st.arrays (s ++ ['/'] ++ k),
        builder :=
          if eraseA ((lookupA st.builder s).getD []) (k ++ brackets) = []
          then eraseA st.builder s
          else setA st.builder s (eraseA ((lookupA st.builder s).getD []) (k ++ brackets)) } := by
  unfold removeArray at h
  rw [getArrayName_of_none hk] at h
  dsimp only at h
  split at h
  · injection h with h'
    exact h'.symm
  · exact absurd h (by simp)

theorem removeKey_ok_shape {d : Doc} {s k : Str} {d' : Doc}
    (h : removeKey d s k = .ok d') :
    d' = if eraseA ((lookupA d s).getD []) k = [] then eraseA d s
         else setA d s (eraseA ((lookupA d s).getD []) k) := by
  unfold removeKey at h
  split at h
  · injection h with h'
    exact h'.symm
  · exact absurd h (by simp)

/-- A `builder[s][k] = v` write never destroys an existing entry, so every
bookkeeping witness survives it. -/
theorem witness_bset_any {d : Doc} {S K v s' k' : Str}
    (h : (bget d s' (k' ++ brackets)).isSome) :
    (bget (bset d S K v) s' (k' ++ brackets)).isSome := by
  by_cases hs : s' = S
  · subst hs
    by_cases hkk : k' ++ brackets = K
    · subst hkk
      rw [bget_bset_self]
      rfl
    · rw [bget_bset_same_sec_ne _ _ _ _ _ hkk]
      exact h
  · rw [bget_bset_ne_sec _ _ _ _ _ _ hs]
    exact h

/-- Erasing key `kk` from section `S` (with the empty-section cleanup)
preserves a bookkeeping witness as long as the erased key is not that
witness's own `key[]` entry. -/
theorem witness_eraseOrSet {d : Doc} {S kk s' k' : Str}
    (hne : s' = S → k' ++ brackets ≠ kk)
    (h : (bget d s' (k' ++ brackets)).isSome) :
    (bget (if eraseA ((lookupA d S).getD []) kk = [] then eraseA d S
           else setA d S (eraseA ((lookupA d S).getD []) kk)) s' (k' ++ brackets)).isSome := by
  by_cases hs : s' = S
  · subst hs
    have hne' : k' ++ brackets ≠ kk := hne rfl
    unfold bget at h
    cases hl : lookupA d s' with
    | none =>
      rw [hl] at h
      simp at h
    | some inner =>
      rw [hl] at h
      simp only [Option.some_bind] at h
      simp only [Option.getD_some]
      by_cases hin : eraseA inner kk = []
      · exfalso
        rcases eraseA_eq_nil hin with rfl | ⟨v, rfl⟩
        · simp [lookupA] at h
        · rw [show lookupA [(kk, v)] (k' ++ brackets) = none by
            simp [lookupA, Ne.symm hne']] at h
          simp at h
      · rw [if_neg hin]
        unfold bget
        rw [lookupA_setA_self]
        simp only [Option.some_bind]
        rw [lookupA_eraseA_ne _ _ _ hne']
        exact h
  · by_cases hin : eraseA ((lookupA d S).getD []) kk = []
    · rw [if_pos hin]
      unfold bget
      rw [lookupA_eraseA_ne _ _ _ hs]
      exact h
    · rw [if_neg hin]
      unfold bget
      rw [lookupA_setA_ne _ _ _ _ hs]
      exact h

theorem parseInlineX_shape (st : StateX) (buf : Str) (st' : StateX)
    (h : parseInlineX st buf = .ok st') :
    (st'.builder = st.builder ∧ st'.arrays = st.arrays)
    ∨ ∃ sp key val, ¬ findChar ';' buf = some 0 ∧ findChar '=' buf = some sp
        ∧ strip (buf.take sp) = .ok key ∧ strip (valueRaw buf sp) = .ok val
        ∧ st'.builder = bset st.builder st.cur key val
        ∧ st'.arrays = (match findSub brackets key with
            | some pt => pushA st.arrays (st.cur ++ ['/'] ++ key.take pt) val
            | none => st.arrays) := by
  unfold parseInlineX at h
  split at h
  · injection h with h
    subst h
    exact Or.inl ⟨rfl, rfl⟩
  · rename_i hcm
    split at h
    · rename_i sp hsp
      split at h
      · exact absurd h (by simp)
      · rename_i key hkey
        split at h
        · exact absurd h (by simp)
        · rename_i val hval
          injection h with h
          subst h
          exact Or.inr ⟨sp, key, val, hcm, hsp, hkey, hval, rfl, rfl⟩
    · split at h
      · dsimp only at h
        split at h
        · injection h with h
          subst h
          exact Or.inl ⟨rfl, rfl⟩
        · split at h
          · injection h with h
            subst h
            exact Or.inl ⟨rfl, rfl⟩
          · injection h with h
            subst h
            exact Or.inl ⟨rfl, rfl⟩
      · injection h with h
        subst h
        exact Or.inl ⟨rfl, rfl⟩

theorem lineArrayBenign_key {buf : Str} {sp : Nat} {key : Str}
    (hb : lineArrayBenign buf = true)
    (hcm : ¬ findChar ';' buf = some 0)
    (hsp : findChar '=' buf = some sp)
    (hkey : strip (buf.take sp) = .ok key) {pt : Nat}
    (hpt : findSub brackets key = some pt) : key = key.take pt ++ brackets := by
  simp only [lineArrayBenign, if_neg hcm, hsp, hkey, hpt] at hb
  exact of_decide_eq_true hb

theorem reachArr_reachX {st : StateX} (h : ReachArr st) : ReachX st := by
  induction h with
  | init => exact ReachX.init
  | addKey st s k v st' hr hok ih => exact ReachX.addKey st s k v st' ih hok
  | removeKey st s k st' hr hb hok ih => exact ReachX.removeKey st s k st' ih hok
  | addArray st s k arr st' hr hb hok ih => exact ReachX.addArray st s k arr st' ih hok
  | removeArray st s k st' hr hb hok ih => exact ReachX.removeArray st s k st' ih hok
  | parse st buf st' hr hb hok ih => exact ReachX.parse st buf st' ih hok

/-- Under suffix-disciplined usage, ArrayIndex keys stay unique and every
registered path `section/key` has its raw `key[]` entry in the document. -/
theorem reachArr_invariant (st : StateX) (h : ReachArr st) :
    (st.arrays.map Prod.fst).Nodup
    ∧ ∀ p es, (p, es) ∈ st.arrays →
        ∃ s k, p = s ++ '/' :: k ∧ (bget st.builder s (k ++ brackets)).isSome := by
  induction h with
  | init =>
    exact ⟨by simp [st0X], fun p es hm => by simp [st0X] at hm⟩
  | addKey st s k v st' hr hok ih =>
    unfold addKeyX at hok
    cases haddk : addKey st.builder s k v with
    | error e =>
      rw [haddk] at hok
      exact absurd hok (by simp)
    | ok b' =>
      rw [haddk] at hok
      injection hok with hok
      subst hok
      obtain ⟨hb', -⟩ := addKey_ok_shape haddk
      subst hb'
      refine ⟨ih.1, fun p es hm => ?_⟩
      obtain ⟨s₁, k₁, hp, hw⟩ := ih.2 p es hm
      exact ⟨s₁, k₁, hp, witness_bset_any hw⟩
  | removeKey st s k st' hr hb hok ih =>
    unfold removeKeyX at hok
    cases hrk : removeKey st.builder s k with
    | error e =>
      rw [hrk] at hok
      exact absurd hok (by simp)
    | ok b' =>
      rw [hrk] at hok
      injection hok with hok
      subst hok
      have hsh := removeKey_ok_shape hrk
      subst hsh
      refine ⟨ih.1, fun p es hm => ?_⟩
      obtain ⟨s₁, k₁, hp, hw⟩ := ih.2 p es hm
      exact ⟨s₁, k₁, hp,
        witness_eraseOrSet (fun _ he => ne_suffixed_of_brackets_none hb he.symm) hw⟩
  | addArray st s k arr st' hr hb hok ih =>
    obtain ⟨last, hlast, hst'⟩ := addArray_ok_shape hb hok
    subst hst'
    constructor
    · exact map_fst_aset_nodup _ _ _ ih.1
    · intro p es hm
      rcases mem_aset hm with hm' | hm'
      · injection hm' with e1 e2
        subst e1
        refine ⟨s, k, by rw [append_slash_eq], ?_⟩
        rw [bget_bset_self]
        rfl
      · obtain ⟨s₁, k₁, hp, hw⟩ := ih.2 p es hm'
        exact ⟨s₁, k₁, hp, witness_bset_any hw⟩
  | removeArray st s k st' hr hb hok ih =>
    have hsh := removeArray_ok_shape hb hok
    subst hsh
    constructor
    · exact (map_fst_eraseA_sublist _ _).nodup ih.1
    · intro p es hm
      have hmo := mem_eraseA hm
      obtain ⟨s₁, k₁, hp, hw⟩ := ih.2 p es hmo
      refine ⟨s₁, k₁, hp, ?_⟩
      apply witness_eraseOrSet ?hne hw
      intro hseq heq
      have hk₁ : k₁ = k := List.append_cancel_right heq
      have hpq : p = s ++ ['/'] ++ k := by
        rw [hp, hseq, hk₁, append_slash_eq]
      have hnone : lookupA (eraseA st.arrays (s ++ ['/'] ++ k)) (s ++ ['/'] ++ k) = none :=
        lookupA_eraseA_self _ _ ih.1
      have : p ∈ (eraseA st.arrays (s ++ ['/'] ++ k)).map Prod.fst :=
        List.mem_map.2 ⟨(p, es), hm, rfl⟩
      rw [hpq] at this
      exact not_mem_keys_of_lookupA_none hnone this
  | parse st buf st' hr hb hok ih =>
    rcases parseInlineX_shape st buf st' hok with ⟨hb', ha'⟩ | ⟨sp, key, val, hcm, hsp, hkey, hval, hb', ha'⟩
    · rw [hb', ha']
      exact ih
    · cases hpt : findSub brackets key with
      | none =>
        rw [hpt] at ha'
        rw [hb', ha']
        refine ⟨ih.1, fun p es hm => ?_⟩
        obtain ⟨s₁, k₁, hp, hw⟩ := ih.2 p es hm
        exact ⟨s₁, k₁, hp, witness_bset_any hw⟩
      | some pt =>
        rw [hpt] at ha'
        have hsuffix : key = key.take pt ++ brackets :=
          lineArrayBenign_key hb hcm hsp hkey hpt
        rw [hb', ha']
        constructor
        · exact map_fst_pushA_nodup _ _ _ ih.1
        · intro p es hm
          rcases mem_pushA hm with ⟨es', hm'⟩ | hm'
          · injection hm' with e1 e2
            subst e1
            refine ⟨st.cur, key.take pt, by rw [append_slash_eq], ?_⟩
            rw [← hsuffix, bget_bset_self]
            rfl
          · obtain ⟨s₁, k₁, hp, hw⟩ := ih.2 p es hm'
            exact ⟨s₁, k₁, hp, witness_bset_any hw⟩

theorem arrayBookkept_of_inv (st : StateX)
    (h : ∀ p es, (p, es) ∈ st.arrays →
        ∃ s k, p = s ++ '/' :: k ∧ (bget st.builder s (k ++ brackets)).isSome) :
    arrayBookkept st = true := by
  unfold arrayBookkept
  rw [List.all_eq_true]
  intro pe hpe
  obtain ⟨s, k, hp, hw⟩ := h pe.1 pe.2 hpe
  rw [List.any_eq_true]
  refine ⟨(s, k), ?_, by simpa using hw⟩
  unfold splits
  rw [List.mem_filterMap]
  refine ⟨s.length, ?_, ?_⟩
  · rw [List.mem_range, hp]
    simp
  · rw [hp, if_pos (getElem_qualified_mid s k)]
    rw [← append_slash_eq, take_qualified, drop_qualified]

end BookkeepingLemmas

section ParseLemmas

theorem parseInlineB_assign (st : StateB) (buf : Str) (sp : Nat)
    (hsp : findChar '=' buf = some sp)
    (hc : buf.head? ≠ some ';')
    (hkey : (buf.take sp).all (· == ' ') = false)
    (hval : (valueRaw buf sp).all (· == ' ') = false) :
    parseInlineB st buf = .ok { st with
      builder := bset st.builder st.cur (trim (buf.take sp)) (trim (valueRaw buf sp)) } := by
  have hcm : ¬ findChar ';' buf = some 0 := by
    rw [findChar_eq_some_zero_iff]
    exact hc
  have h1 : strip (buf.take sp) = .ok (trim (buf.take sp)) := by
    unfold strip
    rw [if_neg (by simp [hkey])]
  have h2 : strip (valueRaw buf sp) = .ok (trim (valueRaw buf sp)) := by
    unfold strip
    rw [if_neg (by simp [hval])]
  simp only [parseInlineB, if_neg hcm, hsp, h1, h2]

theorem parseInlineX_assign (st : StateX) (buf : Str) (sp : Nat)
    (hsp : findChar '=' buf = some sp)
    (hc : buf.head? ≠ some ';')
    (hkey : (buf.take sp).all (· == ' ') = false)
    (hval : (valueRaw buf sp).all (· == ' ') = false) :
    parseInlineX st buf = .ok { st with
      arrays :=
        match findSub brackets (trim (buf.take sp)) with
        | some pt => pushA st.arrays (st.cur ++ ['/'] ++ (trim (buf.take sp)).take pt)
            (trim (valueRaw buf sp))
        | none => st.arrays,
      builder := bset st.builder st.cur (trim (buf.take sp)) (trim (valueRaw buf sp)) } := by
  have hcm : ¬ findChar ';' buf = some 0 := by
    rw [findChar_eq_some_zero_iff]
    exact hc
  have h1 : strip (buf.take sp) = .ok (trim (buf.take sp)) := by
    unfold strip
    rw [if_neg (by simp [hkey])]
  have h2 : strip (valueRaw buf sp) = .ok (trim (valueRaw buf sp)) := by
    unfold strip
    rw [if_neg (by simp [hval])]
  simp only [parseInlineX, if_neg hcm, hsp, h1, h2]

end ParseLemmas

section RoundTripLemmas

theorem strip_ok_parts {s t : Str} (h : strip s = .ok t) :
    t = trim s ∧ s.all (· == ' ') = false := by
  unfold strip at h
  split at h
  · exact absurd h (by simp)
  · rename_i hall
    injection h with h
    exact ⟨h.symm, by simpa using hall⟩

theorem strip_ok_trimmed {s t : Str} (h : strip s = .ok t) : Trimmed t := by
  obtain ⟨ht, hall⟩ := strip_ok_parts h
  rw [ht]
  exact trimmed_trim hall

theorem lookupA_eq_some_of_mem_nodup {α : Type} {l : List (Str × α)} {k : Str} {v : α}
    (hn : (l.map Prod.fst).Nodup) (hm : (k, v) ∈ l) : lookupA l k = some v := by
  induction l with
  | nil => cases hm
  | cons a t ih =>
    rw [List.map_cons, List.nodup_cons] at hn
    rcases List.mem_cons.mp hm with heq | hm'
    · rw [← heq]
      simp [lookupA]
    · obtain ⟨k', v'⟩ := a
      by_cases hk : k' = k
      · refine absurd ?_ hn.1
        rw [hk]
        exact List.mem_map.mpr ⟨(k, v), hm', rfl⟩
      · simp only [lookupA, if_neg hk]
        exact ih hn.2 hm'

theorem lookupA_pushA_self (a : List (Str × List Str)) (p : Str) (v : Str) :
    lookupA (pushA a p v) p = some ((lookupA a p).getD [] ++ [v]) := by
  unfold pushA
  cases hl : lookupA a p with
  | none =>
    rw [lookupA_append_of_none _ _ _ hl]
    simp [lookupA]
  | some es =>
    rw [lookupA_setA_self]
    simp

theorem lookupA_pushA_ne (a : List (Str × List Str)) (p v : Str) (p' : Str)
    (h : p' ≠ p) : lookupA (pushA a p v) p' = lookupA a p' := by
  unfold pushA
  cases hl : lookupA a p with
  | none =>
    cases hl' : lookupA a p' with
    | none =>
      rw [lookupA_append_of_none _ _ _ hl']
      simp [lookupA, Ne.symm h]
    | some x =>
      rw [lookupA_append_of_some _ _ _ _ hl']
  | some es => exact lookupA_setA_ne a p p' (es ++ [v]) h

theorem bget_bset_ne_pair (d : Doc) (S K v : Str) (s' k' : Str)
    (h : ¬(s' = S ∧ k' = K)) : bget (bset d S K v) s' k' = bget d s' k' := by
  by_cases hs : s' = S
  · subst hs
    have hk : k' ≠ K := fun hk => h ⟨rfl, hk⟩
    exact bget_bset_same_sec_ne d s' K v k' hk
  · exact bget_bset_ne_sec d S K v s' k' hs

theorem bget_bset_isSome_mono {d : Doc} {s' k' : Str} (S K v : Str)
    (h : (bget d s' k').isSome) : (bget (bset d S K v) s' k').isSome := by
  by_cases hp : s' = S ∧ k' = K
  · rw [hp.1, hp.2, bget_bset_self]
    rfl
  · rw [bget_bset_ne_pair d S K v s' k' hp]
    exact h

theorem setA_setA_same {α : Type} (l : List (Str × α)) (k : Str) (v w : α) :
    setA (setA l k v) k w = setA l k w := by
  induction l with
  | nil => simp [setA]
  | cons a t ih =>
    obtain ⟨k', v'⟩ := a
    by_cases hk : k' = k
    · simp [setA, hk]
    · simp [setA, hk, ih]

theorem setA_append_of_none {α : Type} (l : List (Str × α)) (k : Str) (v : α)
    (h : lookupA l k = none) : setA l k v = l ++ [(k, v)] := by
  induction l with
  | nil => rfl
  | cons a t ih =>
    obtain ⟨k', v'⟩ := a
    simp only [lookupA] at h
    by_cases hk : k' = k
    · rw [if_pos hk] at h
      exact absurd h (by simp)
    · rw [if_neg hk] at h
      simp [setA, hk, ih h]

theorem setA_append_last {α : Type} (l : List (Str × α)) (k : Str) (x y : α)
    (h : lookupA l k = none) : setA (l ++ [(k, x)]) k y = l ++ [(k, y)] := by
  induction l with
  | nil => simp [setA]
  | cons a t ih =>
    obtain ⟨k', v'⟩ := a
    simp only [lookupA] at h
    by_cases hk : k' = k
    · rw [if_pos hk] at h
      exact absurd h (by simp)
    · rw [if_neg hk] at h
      simp [setA, hk, ih h]

theorem bset_fresh (d : Doc) (S K V : Str) (h : lookupA d S = none) :
    bset d S K V = d ++ [(S, [(K, V)])] := by
  unfold bset
  rw [h]

theorem bset_last (d : Doc) (S : Str) (cur : KVs) (K V : Str)
    (h : lookupA d S = none) :
    bset (d ++ [(S, cur)]) S K V = d ++ [(S, setA cur K V)] := by
  have hl : lookupA (d ++ [(S, cur)]) S = some cur := by
    rw [lookupA_append_of_none _ _ _ h]
    simp [lookupA]
  unfold bset
  rw [hl]
  show setA (d ++ [(S, cur)]) S (setA cur K V) = d ++ [(S, setA cur K V)]
  exact setA_append_last d S cur (setA cur K V) h

theorem bset_bset_same (d : Doc) (s k v w : Str) :
    bset (bset d s k v) s k w = bset d s k w := by
  cases hl : lookupA d s with
  | none =>
    rw [bset_fresh d s k v hl, bset_last d s [(k, v)] k w hl, bset_fresh d s k w hl]
    simp [setA]
  | some kvs =>
    have h1 : bset d s k v = setA d s (setA kvs k v) := by
      unfold bset
      rw [hl]
    rw [h1]
    show bset (setA d s (setA kvs k v)) s k w = bset d s k w
    unfold bset
    rw [lookupA_setA_self, hl]
    show setA (setA d s (setA kvs k v)) s (setA (setA kvs k v) k w) =
      setA d s (setA kvs k w)
    rw [setA_setA_same, setA_setA_same]

theorem mapM_ok {α β : Type} (l : List α) (g : α → Except Err β) (f : α → β)
    (h : ∀ x ∈ l, g x = .ok (f x)) : l.mapM g = .ok (l.map f) := by
  induction l with
  | nil => rfl
  | cons a t ih =>
    rw [List.mapM_cons, h a (List.mem_cons_self a t),
      ih (fun x hx => h x (List.mem_cons_of_mem a hx))]
    rfl

theorem mapM_range'_ok (g : Nat → Except Err Str) (f : Str → Str) :
    ∀ (es : List Str) (s : Nat), (∀ i (hi : i < es.length), g (s + i) = .ok (f es[i])) →
    (List.range' s es.length).mapM g = .ok (es.map f) := by
  intro es
  induction es with
  | nil => intro s _; rfl
  | cons e t ih =>
    intro s h
    rw [List.length_cons, List.range'_succ, List.mapM_cons]
    have h0 : g s = .ok (f e) := by simpa using h 0 (by simp)
    have ht : (List.range' (s + 1) t.length).mapM g = .ok (t.map f) := by
      refine ih (s + 1) ?_
      intro i hi
      have hh := h (i + 1) (by simpa using Nat.succ_lt_succ hi)
      have harith : s + (i + 1) = s + 1 + i := by omega
      rw [harith] at hh
      simpa using hh
    rw [h0, ht]
    rfl

theorem mapM_range_ok (g : Nat → Except Err Str) (f : Str → Str) (es : List Str)
    (h : ∀ i (hi : i < es.length), g i = .ok (f es[i])) :
    (List.range es.length).mapM g = .ok (es.map f) := by
  rw [List.range_eq_range']
  refine mapM_range'_ok g f es 0 ?_
  intro i hi
  simpa using h i hi

theorem pushAll_present (a : List (Str × List Str)) (p : Str) (cur : List Str)
    (es : List Str) (h : lookupA a p = none) :
    pushAll (a ++ [(p, cur)]) p es = a ++ [(p, cur ++ es)] := by
  induction es generalizing cur with
  | nil => simp [pushAll]
  | cons e t ih =>
    have hl : lookupA (a ++ [(p, cur)]) p = some cur := by
      rw [lookupA_append_of_none _ _ _ h]
      simp [lookupA]
    have hpush : pushA (a ++ [(p, cur)]) p e = a ++ [(p, cur ++ [e])] := by
      unfold pushA
      rw [hl]
      show setA (a ++ [(p, cur)]) p (cur ++ [e]) = a ++ [(p, cur ++ [e])]
      exact setA_append_last a p cur (cur ++ [e]) h
    show pushAll (pushA (a ++ [(p, cur)]) p e) p t = _
    rw [hpush, ih (cur ++ [e])]
    simp

theorem pushAll_fresh (a : List (Str × List Str)) (p : Str) (es : List Str)
    (h : lookupA a p = none) (hes : es ≠ []) :
    pushAll a p es = a ++ [(p, es)] := by
  cases es with
  | nil => exact absurd rfl hes
  | cons e t =>
    have hpush : pushA a p e = a ++ [(p, [e])] := by
      unfold pushA
      rw [h]
    show pushAll (pushA a p e) p t = _
    rw [hpush, pushAll_present a p [e] t h]
    simp

theorem mem_headerName {c : Char} {buf : Str} {stx : Nat}
    (h : c ∈ headerName buf stx) : c ∈ buf := by
  unfold headerName at h
  split at h
  · split at h
    · exact List.drop_subset _ _ (List.take_subset _ _ h)
    · exact List.drop_subset _ _ h
  · exact List.drop_subset _ _ h

theorem parseInlineX_cur_no_eq {st : StateX} {buf : Str} {st' : StateX}
    (h : parseInlineX st buf = .ok st') (hcur : '=' ∉ st.cur) : '=' ∉ st'.cur := by
  unfold parseInlineX at h
  split at h
  · injection h with h
    subst h
    exact hcur
  · split at h
    · split at h
      · exact absurd h (by simp)
      · split at h
        · exact absurd h (by simp)
        · injection h with h
          subst h
          exact hcur
    · rename_i hsp
      split at h
      · rename_i stx hstx
        have hne : '=' ∉ buf := (findChar_eq_none_iff '=' buf).mp hsp
        have htmp : '=' ∉ headerName buf stx := fun hm => hne (mem_headerName hm)
        dsimp only at h
        split at h
        · injection h with h
          subst h
          intro hm
          rcases List.mem_append.mp hm with hm | hm
          · exact hcur hm
          · exact htmp hm
        · split at h
          · injection h with h
            subst h
            exact htmp
          · injection h with h
            subst h
            exact htmp
      · injection h with h
        subst h
        exact hcur

theorem assign_key_facts {buf : Str} {sp : Nat} {key : Str}
    (hsp : findChar '=' buf = some sp)
    (hkey : strip (buf.take sp) = .ok key) :
    Trimmed key ∧ '=' ∉ key := by
  obtain ⟨hk, _⟩ := strip_ok_parts hkey
  refine ⟨strip_ok_trimmed hkey, ?_⟩
  intro hm
  rw [hk] at hm
  exact findChar_take_not_mem '=' buf sp hsp (mem_of_mem_trim hm)

theorem assign_val_facts {buf : Str} {sp : Nat} {key val : Str}
    (hsp : findChar '=' buf = some sp)
    (hkey : strip (buf.take sp) = .ok key)
    (hval : strip (valueRaw buf sp) = .ok val) :
    Trimmed val ∧ (';' ∈ val → ';' ∈ key) := by
  refine ⟨strip_ok_trimmed hval, ?_⟩
  intro hm
  obtain ⟨hv, _⟩ := strip_ok_parts hval
  obtain ⟨hk, _⟩ := strip_ok_parts hkey
  rw [hv] at hm
  have hm' : ';' ∈ valueRaw buf sp := mem_of_mem_trim hm
  rw [hk]
  unfold valueRaw at hm'
  cases hq : findChar ';' buf with
  | none =>
    simp only [hq] at hm'
    exact absurd (List.drop_subset _ _ hm') ((findChar_eq_none_iff ';' buf).mp hq)
  | some sq =>
    simp only [hq] at hm'
    by_cases hlt : sp < sq
    · rw [if_pos hlt, List.take_drop] at hm'
      have harith : sp + 1 + (sq - sp - 1) = sq := by omega
      rw [harith] at hm'
      exact absurd (List.drop_subset _ _ hm') (findChar_take_not_mem ';' buf sq hq)
    · rw [if_neg hlt] at hm'
      have hq' : buf[sq]? = some ';' := findChar_getElem ';' buf sq hq
      have hp' : buf[sp]? = some '=' := findChar_getElem '=' buf sp hsp
      have hne : sq ≠ sp := by
        intro hEq
        rw [hEq, hp'] at hq'
        exact absurd (Option.some.inj hq') (by decide)
      have hlt' : sq < sp := by omega
      have htk : (buf.take sp)[sq]? = some ';' := by
        rw [List.getElem?_take, if_pos hlt']
        exact hq'
      exact mem_trim_of_ne_space (by decide) (List.getElem?_mem htk)

theorem parse_blank (st : StateX) : parseInlineX st [] = .ok st := rfl

theorem loadLinesX_append (st : StateX) (l₁ l₂ : List Str) :
    loadLinesX st (l₁ ++ l₂) =
      match loadLinesX st l₁ with
      | .error e => .error e
      | .ok st' => loadLinesX st' l₂ := by
  induction l₁ generalizing st with
  | nil => rfl
  | cons l t ih =>
    have h1 : loadLinesX st (l :: (t ++ l₂)) =
        match parseInlineX st l with
        | .error e => .error e
        | .ok st' => loadLinesX st' (t ++ l₂) := rfl
    have h2 : loadLinesX st (l :: t) =
        match parseInlineX st l with
        | .error e => .error e
        | .ok st' => loadLinesX st' t := rfl
    rw [List.cons_append, h1, h2]
    cases hp : parseInlineX st l with
    | error e => rfl
    | ok st' => exact ih st'

theorem parse_emit_line (st : StateX) (K e : Str) (hK : Trimmed K) (hKe : '=' ∉ K)
    (hKc : K.head? ≠ some ';') (he : Trimmed e) (hsemi : ';' ∈ e → ';' ∈ K) :
    parseInlineX st (K ++ [' ', '=', ' '] ++ e) = .ok { st with
      arrays :=
        match findSub brackets K with
        | some pt => pushA st.arrays (st.cur ++ ['/'] ++ K.take pt) e
        | none => st.arrays,
      builder := bset st.builder st.cur K e } := by
  rw [List.append_assoc]
  have hKnone : findChar '=' K = none := (findChar_eq_none_iff '=' K).mpr hKe
  have h1 : findChar '=' ([' ', '=', ' '] ++ e) = some 1 := rfl
  have hsp : findChar '=' (K ++ ([' ', '=', ' '] ++ e)) = some (K.length + 1) := by
    rw [findChar_append_right '=' K _ hKnone, h1]
    rfl
  have hc : (K ++ ([' ', '=', ' '] ++ e)).head? ≠ some ';' := by
    cases K with
    | nil => exact absurd rfl hK.1
    | cons a t =>
      rw [List.cons_append]
      simpa using hKc
  have hcm : ¬ findChar ';' (K ++ ([' ', '=', ' '] ++ e)) = some 0 := by
    rw [findChar_eq_some_zero_iff]
    exact hc
  have htake : (K ++ ([' ', '=', ' '] ++ e)).take (K.length + 1) = K ++ [' '] := by
    rw [List.take_append]
    rfl
  have hdrop : (K ++ ([' ', '=', ' '] ++ e)).drop (K.length + 1 + 1) = ' ' :: e := by
    have h2 : K.length + 1 + 1 = K.length + 2 := rfl
    rw [h2, List.drop_append]
    rfl
  have hvr : valueRaw (K ++ ([' ', '=', ' '] ++ e)) (K.length + 1) = ' ' :: e := by
    unfold valueRaw
    cases hsq : findChar ';' (K ++ ([' ', '=', ' '] ++ e)) with
    | none => exact hdrop
    | some sq =>
      have hKsemi : ';' ∈ K := by
        by_contra hKn
        have hKn' : findChar ';' K = none := (findChar_eq_none_iff ';' K).mpr hKn
        have hen : ';' ∉ e := fun hin => hKn (hsemi hin)
        have hen' : findChar ';' e = none := (findChar_eq_none_iff ';' e).mpr hen
        have htl : findChar ';' ([' ', '=', ' '] ++ e) = none := by
          show findChar ';' (' ' :: '=' :: ' ' :: e) = none
          simp [findChar, hen']
        have hall : findChar ';' (K ++ ([' ', '=', ' '] ++ e)) = none := by
          rw [findChar_append_right ';' K _ hKn', htl]
          rfl
        rw [hall] at hsq
        cases hsq
      obtain ⟨j, hj⟩ : ∃ j, findChar ';' K = some j := by
        cases hfj : findChar ';' K with
        | none => exact absurd hKsemi ((findChar_eq_none_iff ';' K).mp hfj)
        | some j => exact ⟨j, rfl⟩
      have hjq : findChar ';' (K ++ ([' ', '=', ' '] ++ e)) = some j :=
        findChar_append_left ';' K _ j hj
      rw [hjq] at hsq
      injection hsq with hsq
      subst hsq
      have hjlt : j < K.length := findChar_lt_length ';' K j hj
      show (if K.length + 1 < j
          then ((K ++ ([' ', '=', ' '] ++ e)).drop (K.length + 1 + 1)).take (j - (K.length + 1) - 1)
          else (K ++ ([' ', '=', ' '] ++ e)).drop (K.length + 1 + 1)) = ' ' :: e
      rw [if_neg (by omega)]
      exact hdrop
  have hkeyok : strip ((K ++ ([' ', '=', ' '] ++ e)).take (K.length + 1)) = .ok K := by
    rw [htake]
    exact strip_append_space hK
  have hvalok : strip (valueRaw (K ++ ([' ', '=', ' '] ++ e)) (K.length + 1)) = .ok e := by
    rw [hvr]
    exact strip_cons_space he
  simp only [parseInlineX, if_neg hcm, hsp, hkeyok, hvalok]

theorem parse_header (st : StateX) (S : Str) (hEq : '=' ∉ S) (hBr : ']' ∉ S)
    (hDot : S.head? ≠ some '.') :
    parseInlineX st (['['] ++ S ++ [']']) =
      .ok { st with
        connection :=
          match findChar '.' S with
          | some pt => pushA st.connection (S.take pt) (S.drop (pt + 1))
          | none => st.connection,
        cur := S } := by
  show parseInlineX st ('[' :: (S ++ [']'])) = _
  have hcm : ¬ findChar ';' ('[' :: (S ++ [']'])) = some 0 := by
    rw [findChar_eq_some_zero_iff]
    simp
  have hsp : findChar '=' ('[' :: (S ++ [']'])) = none := by
    rw [findChar_eq_none_iff]
    intro hm
    rcases List.mem_cons.mp hm with h | h
    · exact absurd h (by decide)
    · rcases List.mem_append.mp h with h | h
      · exact hEq h
      · exact absurd h (by decide)
  have hstx : findChar '[' ('[' :: (S ++ [']'])) = some 0 := rfl
  have hbr : findChar ']' S = none := (findChar_eq_none_iff ']' S).mpr hBr
  have he1 : findChar ']' (S ++ [']']) = some S.length := by
    rw [findChar_append_right ']' S [']'] hbr]
    rfl
  have he2 : findChar ']' ('[' :: (S ++ [']'])) = some (S.length + 1) := by
    show (if '[' = ']' then some 0 else (findChar ']' (S ++ [']'])).map (· + 1)) = _
    rw [if_neg (by decide), he1]
    rfl
  have hname : headerName ('[' :: (S ++ [']'])) 0 = S := by
    unfold headerName
    rw [he2]
    show (if 0 < S.length + 1
        then (('[' :: (S ++ [']'])).drop (0 + 1)).take (S.length + 1 - 0 - 1)
        else ('[' :: (S ++ [']'])).drop (0 + 1)) = S
    rw [if_pos (by omega)]
    show ((S ++ [']']).take (S.length + 1 - 0 - 1)) = S
    have h3 : S.length + 1 - 0 - 1 = S.length := by omega
    rw [h3]
    exact List.take_left S [']']
  cases hdot : findChar '.' S with
  | some pt =>
    simp only [parseInlineX, if_neg hcm, hsp, hstx, hname, if_neg hDot, hdot]
  | none =>
    simp only [parseInlineX, if_neg hcm, hsp, hstx, hname, if_neg hDot, hdot]

theorem mem_bset_sec {d : Doc} {s k v : Str} {s' : Str} {kvs' : KVs}
    (h : (s', kvs') ∈ bset d s k v) : s' = s ∨ (s', kvs') ∈ d := by
  unfold bset at h
  cases hl : lookupA d s with
  | none =>
    simp only [hl] at h
    rcases List.mem_append.mp h with h | h
    · exact Or.inr h
    · exact Or.inl (congrArg Prod.fst (List.mem_singleton.mp h))
  | some kvs =>
    simp only [hl] at h
    rcases mem_setA h with hEq | hmem
    · exact Or.inl (congrArg Prod.fst hEq)
    · exact Or.inr hmem

theorem bset_entries {d : Doc} {s k v : Str} {s' k' v' : Str}
    (h : bget (bset d s k v) s' k' = some v') :
    bget d s' k' = some v' ∨ (s' = s ∧ k' = k ∧ v' = v) := by
  by_cases hp : s' = s ∧ k' = k
  · rw [hp.1, hp.2, bget_bset_self] at h
    exact Or.inr ⟨hp.1, hp.2, (Option.some.inj h).symm⟩
  · rw [bget_bset_ne_pair d s k v s' k' hp] at h
    exact Or.inl h

theorem PInv_init : PInv st0X := by
  refine ⟨⟨?_, ?_, ?_⟩, ?_, ?_, ?_, ?_, ?_⟩
  · intro s kvs h
    cases h
  · exact List.nodup_nil
  · intro s kvs h
    cases h
  · intro h
    cases h
  · intro s kvs h
    cases h
  · intro s k v h
    exact absurd h (by simp [bget, lookupA, st0X])
  · exact List.nodup_nil
  · intro p es h
    cases h

theorem PInv_preserved {st : StateX} {buf : Str} {st' : StateX}
    (h : parseInlineX st buf = .ok st') (hI : PInv st) : PInv st' := by
  have hcur' : '=' ∉ st'.cur := parseInlineX_cur_no_eq h hI.curNoEq
  rcases parseInlineX_shape st buf st' h with ⟨hb, ha⟩ |
    ⟨sp, key, val, hcm, hsp, hkey, hval, hb, ha⟩
  · refine ⟨?_, hcur', ?_, ?_, ?_, ?_⟩
    · rw [hb]
      exact hI.wf
    · rw [hb]
      exact hI.secNoEq
    · rw [hb, ha]
      exact hI.entries
    · rw [ha]
      exact hI.arrNodup
    · rw [ha, hb]
      exact hI.arrEntries
  · obtain ⟨hKt, hKe⟩ := assign_key_facts hsp hkey
    obtain ⟨hVt, hsemi⟩ := assign_val_facts hsp hkey hval
    refine ⟨?_, hcur', ?_, ?_, ?_, ?_⟩
    · rw [hb]
      exact bset_preserves _ _ _ _ hI.wf
    · rw [hb]
      intro s kvs hmem
      rcases mem_bset_sec hmem with hEq | hold
      · rw [hEq]
        exact hI.curNoEq
      · exact hI.secNoEq s kvs hold
    · intro s k v hg
      rw [hb] at hg
      rcases bset_entries hg with hold | ⟨hs, hk, hv⟩
      · obtain ⟨h1, h2, h3, h4, h5⟩ := hI.entries s k v hold
        refine ⟨h1, h2, h3, h4, ?_⟩
        intro pt hpt
        have hsm := h5 pt hpt
        simp only [ha]
        cases hpt' : findSub brackets key with
        | none => exact hsm
        | some pt2 =>
          show (lookupA (pushA st.arrays (st.cur ++ ['/'] ++ key.take pt2) val)
            (s ++ '/' :: k.take pt)).isSome
          by_cases hpp : s ++ '/' :: k.take pt = st.cur ++ ['/'] ++ key.take pt2
          · rw [hpp, lookupA_pushA_self]
            rfl
          · rw [lookupA_pushA_ne _ _ _ _ hpp]
            exact hsm
      · subst hs
        subst hk
        subst hv
        refine ⟨hKt, hVt, hKe, hsemi, ?_⟩
        intro pt hpt
        simp only [ha, hpt]
        rw [(append_slash_eq st.cur (k.take pt)).symm, lookupA_pushA_self]
        rfl
    · rw [ha]
      cases hpt' : findSub brackets key with
      | none => exact hI.arrNodup
      | some pt2 => exact map_fst_pushA_nodup _ _ _ hI.arrNodup
    · rw [ha]
      cases hpt' : findSub brackets key with
      | none =>
        intro p es hm
        obtain ⟨h1, h2, h3⟩ := hI.arrEntries p es hm
        refine ⟨h1, ?_, ?_⟩
        · intro e hme
          obtain ⟨het, s1, k1, pt1, hf1, hp1, hbs1, hsem1⟩ := h2 e hme
          refine ⟨het, s1, k1, pt1, hf1, hp1, ?_, hsem1⟩
          rw [hb]
          exact bget_bset_isSome_mono _ _ _ hbs1
        · obtain ⟨s1, k1, pt1, hf1, hp1, hlast⟩ := h3
          refine ⟨s1, k1, pt1, hf1, hp1, ?_⟩
          rw [hb, bget_bset_ne_pair]
          · exact hlast
          · rintro ⟨hs1, hk1⟩
            rw [hk1, hpt'] at hf1
            exact Option.noConfusion hf1
      | some pt2 =>
        intro p es hm
        have hnd' : ((pushA st.arrays (st.cur ++ ['/'] ++ key.take pt2) val).map
            Prod.fst).Nodup := map_fst_pushA_nodup _ _ _ hI.arrNodup
        have hlk : lookupA (pushA st.arrays (st.cur ++ ['/'] ++ key.take pt2) val) p
            = some es := lookupA_eq_some_of_mem_nodup hnd' hm
        by_cases hpp : p = st.cur ++ ['/'] ++ key.take pt2
        · subst hpp
          rw [lookupA_pushA_self] at hlk
          injection hlk with hlk
          refine ⟨?_, ?_, ?_⟩
          · rw [← hlk]
            simp
          · intro e hme
            rw [← hlk] at hme
            rcases List.mem_append.mp hme with hme | hme
            · cases hl0 : lookupA st.arrays (st.cur ++ ['/'] ++ key.take pt2) with
              | none =>
                rw [hl0] at hme
                cases hme
              | some es0 =>
                rw [hl0] at hme
                have hm0 : (st.cur ++ ['/'] ++ key.take pt2, es0) ∈ st.arrays :=
                  mem_of_lookupA_eq_some hl0
                obtain ⟨_, h2, _⟩ := hI.arrEntries _ es0 hm0
                obtain ⟨het, s1, k1, pt1, hf1, hp1, hbs1, hsem1⟩ := h2 e hme
                refine ⟨het, s1, k1, pt1, hf1, hp1, ?_, hsem1⟩
                rw [hb]
                exact bget_bset_isSome_mono _ _ _ hbs1
            · have he : e = val := List.mem_singleton.mp hme
              subst he
              refine ⟨hVt, st.cur, key, pt2, hpt', append_slash_eq _ _, ?_, hsemi⟩
              rw [hb, bget_bset_self]
              rfl
          · refine ⟨st.cur, key, pt2, hpt', append_slash_eq _ _, ?_⟩
            rw [hb, bget_bset_self, ← hlk, List.getLast?_concat]
        · rw [lookupA_pushA_ne _ _ _ _ hpp] at hlk
          have hold : (p, es) ∈ st.arrays := mem_of_lookupA_eq_some hlk
          obtain ⟨h1, h2, h3⟩ := hI.arrEntries p es hold
          refine ⟨h1, ?_, ?_⟩
          · intro e hme
            obtain ⟨het, s1, k1, pt1, hf1, hp1, hbs1, hsem1⟩ := h2 e hme
            refine ⟨het, s1, k1, pt1, hf1, hp1, ?_, hsem1⟩
            rw [hb]
            exact bget_bset_isSome_mono _ _ _ hbs1
          · obtain ⟨s1, k1, pt1, hf1, hp1, hlast⟩ := h3
            refine ⟨s1, k1, pt1, hf1, hp1, ?_⟩
            rw [hb, bget_bset_ne_pair]
            · exact hlast
            · rintro ⟨hs1, hk1⟩
              rw [hk1, hpt'] at hf1
              injection hf1 with hf1
              apply hpp
              rw [hp1, hs1, hk1, hf1, append_slash_eq]

theorem PInv_load : ∀ (L : List Str) (st st' : StateX),
    loadLinesX st L = .ok st' → PInv st → PInv st' := by
  intro L
  induction L with
  | nil =>
    intro st st' h hI
    injection h with h
    rw [← h]
    exact hI
  | cons l t ih =>
    intro st st' h hI
    unfold loadLinesX at h
    cases hp : parseInlineX st l with
    | error e =>
      rw [hp] at h
      exact Except.noConfusion h
    | ok st1 =>
      rw [hp] at h
      exact ih st1 st' h (PInv_preserved hp hI)

theorem saveKV_array_ok (st : StateX) (S K V : Str) (pt : Nat) (es : List Str)
    (hpt : findSub brackets K = some pt)
    (hS : findSub brackets S = none)
    (hlk : lookupA st.arrays (S ++ ['/'] ++ K.take pt) = some es) :
    saveKV st S (K, V) = .ok (es.map fun e => K ++ [' ', '=', ' '] ++ e) := by
  have htk : findSub brackets (K.take pt) = none := findSub_brackets_take_none hpt
  have hga : getArrayName K = K.take pt := by
    unfold getArrayName
    rw [hpt]
  have hq : getArrayName (S ++ ['/'] ++ K.take pt) = S ++ ['/'] ++ K.take pt :=
    getArrayName_qualified_none S (K.take pt) hS htk
  have hia : isArray1 st (S ++ ['/'] ++ K.take pt) = true := by
    unfold isArray1
    rw [hq, hlk]
    rfl
  have hsz : sizeOfArray2 st S K = .ok es.length := by
    unfold sizeOfArray2
    dsimp only
    rw [hga, if_pos hia]
    unfold atA
    rw [hlk]
  have hv : ∀ i (hi : i < es.length), valueOfArray2 st S K i = .ok es[i] := by
    intro i hi
    unfold valueOfArray2
    dsimp only
    rw [hga, if_pos hia]
    unfold atA
    rw [hlk]
    show (match es[i]? with
      | some e => Except.ok e
      | none => Except.error Err.outOfRange) = Except.ok es[i]
    rw [List.getElem?_eq_getElem hi]
  unfold saveKV
  dsimp only
  simp only [hpt, hsz]
  refine mapM_range_ok _ _ es ?_
  intro i hi
  rw [hv i hi]

theorem saveKV_ok (st : StateX) (hI : PInv st) (hB : Benign st) (S : Str) (kvs : KVs)
    (hmem : (S, kvs) ∈ st.builder) (kv : Str × Str) (hkv : kv ∈ kvs) :
    saveKV st S kv = .ok (linesOf st S kv) := by
  obtain ⟨K, V⟩ := kv
  have hbg : bget st.builder S K = some V := by
    unfold bget
    rw [lookupA_eq_some_of_mem_nodup hI.wf.2.1 hmem]
    exact lookupA_eq_some_of_mem_nodup (hI.wf.2.2 S kvs hmem) hkv
  cases hpt : findSub brackets K with
  | none =>
    unfold saveKV linesOf
    dsimp only
    simp only [hpt]
  | some pt =>
    obtain ⟨_, _, _, _, h5⟩ := hI.entries S K V hbg
    have hsome := h5 pt hpt
    obtain ⟨es, hes⟩ := Option.isSome_iff_exists.mp hsome
    have hlk : lookupA st.arrays (S ++ ['/'] ++ K.take pt) = some es := by
      rw [append_slash_eq]
      exact hes
    have hS : findSub brackets S = none := (hB.secOk S kvs hmem).2.2
    rw [saveKV_array_ok st S K V pt es hpt hS hlk]
    unfold linesOf
    dsimp only
    simp only [hpt, hlk, Option.getD_some]

theorem saveX_ok (st : StateX) (hI : PInv st) (hB : Benign st) :
    saveX st = .ok ((st.builder.map (blockOf st)).flatten) := by
  have hsec : ∀ sec ∈ st.builder,
      (fun sec => do
        let body ← sec.2.mapM (saveKV st sec.1)
        pure ((['['] ++ sec.1 ++ [']']) :: body.flatten ++ [([] : Str)])) sec
        = Except.ok (blockOf st sec) := by
    intro sec hmem
    obtain ⟨S, kvs⟩ := sec
    have hbody : kvs.mapM (saveKV st S) = .ok (kvs.map (linesOf st S)) :=
      mapM_ok kvs _ _ (fun kv hkv => saveKV_ok st hI hB S kvs hmem kv hkv)
    show (kvs.mapM (saveKV st S)).bind _ = _
    rw [hbody]
    rfl
  have hall : st.builder.mapM (fun sec => do
      let body ← sec.2.mapM (saveKV st sec.1)
      pure ((['['] ++ sec.1 ++ [']']) :: body.flatten ++ [([] : Str)]))
      = .ok (st.builder.map (blockOf st)) := mapM_ok _ _ _ hsec
  unfold saveX
  rw [hall]

theorem bget_eq_some_elim {d : Doc} {s k v : Str} (h : bget d s k = some v) :
    ∃ kvs, lookupA d s = some kvs ∧ lookupA kvs k = some v := by
  unfold bget at h
  cases hl : lookupA d s with
  | none =>
    rw [hl] at h
    exact absurd h (by simp)
  | some kvs =>
    rw [hl] at h
    exact ⟨kvs, rfl, by simpa using h⟩

theorem process_array_lines (K : Str) (pt : Nat)
    (hK : Trimmed K) (hKe : '=' ∉ K) (hKc : K.head? ≠ some ';')
    (hpt : findSub brackets K = some pt) :
    ∀ (es : List Str), es ≠ [] →
      (∀ e ∈ es, Trimmed e ∧ (';' ∈ e → ';' ∈ K)) →
    ∀ (acc : StateX),
    loadLinesX acc (es.map fun e => K ++ [' ', '=', ' '] ++ e) =
      .ok { acc with
        builder := bset acc.builder acc.cur K ((es.getLast?).getD []),
        arrays := pushAll acc.arrays (acc.cur ++ ['/'] ++ K.take pt) es } := by
  intro es
  induction es with
  | nil =>
    intro h
    exact absurd rfl h
  | cons e rest ih =>
    intro _ helem acc
    have he := helem e (List.mem_cons_self e rest)
    have hline := parse_emit_line acc K e hK hKe hKc he.1 he.2
    show (match parseInlineX acc (K ++ [' ', '=', ' '] ++ e) with
      | Except.error err => Except.error err
      | Except.ok st' => loadLinesX st' (rest.map fun x => K ++ [' ', '=', ' '] ++ x)) = _
    rw [hline]
    cases rest with
    | nil =>
      show (Except.ok { acc with
          arrays := match findSub brackets K with
            | some q => pushA acc.arrays (acc.cur ++ ['/'] ++ K.take q) e
            | none => acc.arrays,
          builder := bset acc.builder acc.cur K e } : Except Err StateX) = _
      simp only [hpt]
      rfl
    | cons r t =>
      have ihres := ih (by simp) (fun x hx => helem x (List.mem_cons_of_mem e hx))
        { acc with
          arrays := pushA acc.arrays (acc.cur ++ ['/'] ++ K.take pt) e,
          builder := bset acc.builder acc.cur K e }
      show loadLinesX { acc with
          arrays := match findSub brackets K with
            | some q => pushA acc.arrays (acc.cur ++ ['/'] ++ K.take q) e
            | none => acc.arrays,
          builder := bset acc.builder acc.cur K e }
        ((r :: t).map fun x => K ++ [' ', '=', ' '] ++ x) = _
      simp only [hpt]
      rw [ihres]
      show (Except.ok { acc with
          builder := bset (bset acc.builder acc.cur K e) acc.cur K
            (((r :: t).getLast?).getD []),
          arrays := pushAll (pushA acc.arrays (acc.cur ++ ['/'] ++ K.take pt) e)
            (acc.cur ++ ['/'] ++ K.take pt) (r :: t) } : Except Err StateX) = _
      rw [bset_bset_same, List.getLast?_cons_cons]
      rfl

theorem arr_contrib_pin (st : StateX) (hB : Benign st)
    (S : Str) (kvs : KVs) (hmem : (S, kvs) ∈ st.builder)
    (K V : Str) (hkv : (K, V) ∈ kvs) (pt : Nat)
    (hpt : findSub brackets K = some pt)
    (s1 k1 : Str) (pt1 : Nat) (hf1 : findSub brackets k1 = some pt1)
    (hbs1 : (bget st.builder s1 k1).isSome)
    (hpeq : s1 ++ '/' :: k1.take pt1 = S ++ '/' :: K.take pt) :
    s1 = S ∧ k1 = K := by
  obtain ⟨v1, hv1⟩ := Option.isSome_iff_exists.mp hbs1
  obtain ⟨kvs1, hl1, hk1⟩ := bget_eq_some_elim hv1
  exact hB.arrInj s1 kvs1 k1 v1 pt1 S kvs K V pt
    (mem_of_lookupA_eq_some hl1) (mem_of_lookupA_eq_some hk1) hf1
    hmem hkv hpt hpeq

theorem process_kv (st : StateX) (hI : PInv st) (hB : Benign st) (S : Str) (kvs : KVs)
    (hmem : (S, kvs) ∈ st.builder) (K V : Str) (hkv : (K, V) ∈ kvs)
    (acc : StateX) (hcur : acc.cur = S)
    (hfresh : ∀ pe ∈ arrayEntriesOf st S [(K, V)], lookupA acc.arrays pe.1 = none) :
    loadLinesX acc (linesOf st S (K, V)) = .ok { acc with
      builder := bset acc.builder S K V,
      arrays := acc.arrays ++ arrayEntriesOf st S [(K, V)] } := by
  have hbg : bget st.builder S K = some V := by
    unfold bget
    rw [lookupA_eq_some_of_mem_nodup hI.wf.2.1 hmem]
    exact lookupA_eq_some_of_mem_nodup (hI.wf.2.2 S kvs hmem) hkv
  obtain ⟨hKt, hVt, hKe, hsemi0, h5⟩ := hI.entries S K V hbg
  have hKc : K.head? ≠ some ';' := hB.keyOk S kvs K V hmem hkv
  cases hpt : findSub brackets K with
  | none =>
    have hae : arrayEntriesOf st S [(K, V)] = [] := by
      unfold arrayEntriesOf
      simp [hpt]
    have hlines : linesOf st S (K, V) = [K ++ [' ', '=', ' '] ++ V] := by
      unfold linesOf
      simp [hpt]
    rw [hlines, hae]
    show (match parseInlineX acc (K ++ [' ', '=', ' '] ++ V) with
      | Except.error err => Except.error err
      | Except.ok st' => loadLinesX st' []) = _
    rw [parse_emit_line acc K V hKt hKe hKc hVt hsemi0]
    show (Except.ok { acc with
        arrays := match findSub brackets K with
          | some q => pushA acc.arrays (acc.cur ++ ['/'] ++ K.take q) V
          | none => acc.arrays,
        builder := bset acc.builder acc.cur K V } : Except Err StateX) = _
    simp only [hpt, hcur]
    simp
  | some pt =>
    obtain ⟨es, hes⟩ := Option.isSome_iff_exists.mp (h5 pt hpt)
    have hlk : lookupA st.arrays (S ++ ['/'] ++ K.take pt) = some es := by
      rw [append_slash_eq]
      exact hes
    have hmema : (S ++ ['/'] ++ K.take pt, es) ∈ st.arrays := mem_of_lookupA_eq_some hlk
    obtain ⟨hne, h2, h3⟩ := hI.arrEntries _ es hmema
    have helem : ∀ e ∈ es, Trimmed e ∧ (';' ∈ e → ';' ∈ K) := by
      intro e hme
      obtain ⟨het, s1, k1, pt1, hf1, hp1, hbs1, hsem1⟩ := h2 e hme
      have hpin : s1 = S ∧ k1 = K := by
        refine arr_contrib_pin st hB S kvs hmem K V hkv pt hpt s1 k1 pt1 hf1 hbs1 ?_
        rw [← hp1]
        exact append_slash_eq _ _
      refine ⟨het, fun hsem => ?_⟩
      rw [← hpin.2]
      exact hsem1 hsem
    have hV : es.getLast? = some V := by
      obtain ⟨s1, k1, pt1, hf1, hp1, hlast⟩ := h3
      have hpin : s1 = S ∧ k1 = K := by
        refine arr_contrib_pin st hB S kvs hmem K V hkv pt hpt s1 k1 pt1 hf1 ?_ ?_
        · rw [hlast, List.getLast?_isSome]
          exact hne
        · rw [← hp1]
          exact append_slash_eq _ _
      rw [← hlast, hpin.1, hpin.2]
      exact hbg
    have hae : arrayEntriesOf st S [(K, V)] = [(S ++ ['/'] ++ K.take pt, es)] := by
      unfold arrayEntriesOf
      simp [hpt, hes]
    have hfr : lookupA acc.arrays (S ++ ['/'] ++ K.take pt) = none :=
      hfresh (S ++ ['/'] ++ K.take pt, es) (by rw [hae]; exact List.mem_singleton_self _)
    have hlines : linesOf st S (K, V) = es.map fun e => K ++ [' ', '=', ' '] ++ e := by
      unfold linesOf
      simp [hpt, hes]
    rw [hlines, hae, process_array_lines K pt hKt hKe hKc hpt es hne helem acc, hcur, hV,
      pushAll_fresh acc.arrays _ es hfr hne]
    rfl

theorem arrayEntriesOf_cons (st : StateX) (S : Str) (kv : Str × Str) (rest : KVs) :
    arrayEntriesOf st S (kv :: rest) =
      arrayEntriesOf st S [kv] ++ arrayEntriesOf st S rest := by
  unfold arrayEntriesOf
  cases h : findSub brackets kv.1 <;> simp [List.filterMap_cons, h]

theorem process_body (st : StateX) (hI : PInv st) (hB : Benign st) (S : Str) (kvs : KVs)
    (hmem : (S, kvs) ∈ st.builder) :
    ∀ (sub : List (Str × Str)), sub.Sublist kvs →
    ∀ (acc : StateX), acc.cur = S →
    (∀ pe ∈ arrayEntriesOf st S sub, lookupA acc.arrays pe.1 = none) →
    ((arrayEntriesOf st S sub).map Prod.fst).Nodup →
    loadLinesX acc ((sub.map (linesOf st S)).flatten) = .ok { acc with
      builder := sub.foldl (fun b kv => bset b S kv.1 kv.2) acc.builder,
      arrays := acc.arrays ++ arrayEntriesOf st S sub } := by
  intro sub
  induction sub with
  | nil =>
    intro _ acc _ _ _
    show (Except.ok acc : Except Err StateX) = _
    have hnil : arrayEntriesOf st S [] = [] := rfl
    rw [hnil]
    simp
  | cons kv rest ih =>
    intro hsl acc hcur hfresh hnd
    obtain ⟨K, V⟩ := kv
    have hkv : (K, V) ∈ kvs := hsl.subset (List.mem_cons_self _ _)
    have hslr : rest.Sublist kvs := (List.sublist_cons_self (K, V) rest).trans hsl
    have hkfresh : ∀ pe ∈ arrayEntriesOf st S [(K, V)],
        lookupA acc.arrays pe.1 = none := by
      intro pe hpe
      refine hfresh pe ?_
      rw [arrayEntriesOf_cons]
      exact List.mem_append_left _ hpe
    have hhead := process_kv st hI hB S kvs hmem K V hkv acc hcur hkfresh
    have hflat : (((K, V) :: rest).map (linesOf st S)).flatten
        = linesOf st S (K, V) ++ (rest.map (linesOf st S)).flatten := by
      simp
    rw [hflat, loadLinesX_append, hhead]
    have hrfresh : ∀ pe ∈ arrayEntriesOf st S rest,
        lookupA (acc.arrays ++ arrayEntriesOf st S [(K, V)]) pe.1 = none := by
      intro pe hpe
      have h1 : lookupA acc.arrays pe.1 = none := by
        refine hfresh pe ?_
        rw [arrayEntriesOf_cons]
        exact List.mem_append_right _ hpe
      have h2 : lookupA (arrayEntriesOf st S [(K, V)]) pe.1 = none := by
        apply lookupA_eq_none_of_not_mem
        intro hmemk
        rw [arrayEntriesOf_cons, List.map_append, List.nodup_append] at hnd
        exact hnd.2.2 hmemk (List.mem_map.mpr ⟨pe, hpe, rfl⟩)
      rw [lookupA_append_of_none _ _ _ h1]
      exact h2
    have hrnd : ((arrayEntriesOf st S rest).map Prod.fst).Nodup := by
      rw [arrayEntriesOf_cons, List.map_append, List.nodup_append] at hnd
      exact hnd.2.1
    have htail := ih hslr
      { acc with
        builder := bset acc.builder S K V,
        arrays := acc.arrays ++ arrayEntriesOf st S [(K, V)] } hcur hrfresh hrnd
    show loadLinesX
      { acc with
        builder := bset acc.builder S K V,
        arrays := acc.arrays ++ arrayEntriesOf st S [(K, V)] }
      ((rest.map (linesOf st S)).flatten) = _
    rw [htail, arrayEntriesOf_cons st S (K, V) rest]
    show (Except.ok
      { acc with
        builder := rest.foldl (fun b kv => bset b S kv.1 kv.2) (bset acc.builder S K V),
        arrays := acc.arrays ++ arrayEntriesOf st S [(K, V)] ++ arrayEntriesOf st S rest }
      : Except Err StateX) = _
    rw [List.append_assoc]
    rfl

theorem process_block (st : StateX) (hI : PInv st) (hB : Benign st) (S : Str) (kvs : KVs)
    (hmem : (S, kvs) ∈ st.builder) (acc : StateX)
    (hfresh : ∀ pe ∈ arrayEntriesOf st S kvs, lookupA acc.arrays pe.1 = none)
    (hnd : ((arrayEntriesOf st S kvs).map Prod.fst).Nodup) :
    ∃ c', loadLinesX acc (blockOf st (S, kvs)) = .ok
      { builder := kvs.foldl (fun b kv => bset b S kv.1 kv.2) acc.builder,
        arrays := acc.arrays ++ arrayEntriesOf st S kvs,
        connection := c', cur := S } := by
  have hEq : '=' ∉ S := hI.secNoEq S kvs hmem
  obtain ⟨hBr, hDot, _⟩ := hB.secOk S kvs hmem
  have hhdr := parse_header acc S hEq hBr hDot
  have hrun : loadLinesX acc (blockOf st (S, kvs)) = .ok
      { builder := kvs.foldl (fun b kv => bset b S kv.1 kv.2) acc.builder,
        arrays := acc.arrays ++ arrayEntriesOf st S kvs,
        connection := (match findChar '.' S with
          | some pt => pushA acc.connection (S.take pt) (S.drop (pt + 1))
          | none => acc.connection),
        cur := S } := by
    show (match parseInlineX acc (['['] ++ S ++ [']']) with
      | Except.error e => Except.error e
      | Except.ok st' => loadLinesX st' ((kvs.map (linesOf st S)).flatten ++ [([] : Str)]))
      = _
    rw [hhdr]
    show loadLinesX
      { acc with
        connection := match findChar '.' S with
          | some pt => pushA acc.connection (S.take pt) (S.drop (pt + 1))
          | none => acc.connection,
        cur := S }
      ((kvs.map (linesOf st S)).flatten ++ [([] : Str)]) = _
    rw [loadLinesX_append,
      process_body st hI hB S kvs hmem kvs (List.Sublist.refl kvs)
        { acc with
          connection := match findChar '.' S with
            | some pt => pushA acc.connection (S.take pt) (S.drop (pt + 1))
            | none => acc.connection,
          cur := S }
        rfl hfresh hnd]
    rfl
  exact ⟨_, hrun⟩

theorem nodup_fst_cons {α β : Type} {a : α × β} {l : List (α × β)}
    (h : ((a :: l).map Prod.fst).Nodup) :
    a.1 ∉ l.map Prod.fst ∧ (l.map Prod.fst).Nodup := by
  rw [List.map_cons, List.nodup_cons] at h
  exact h

theorem replay_section (d₁ : Doc) (S : Str) :
    ∀ (kvs cur : KVs), lookupA d₁ S = none →
    (∀ k ∈ kvs.map Prod.fst, lookupA cur k = none) →
    (kvs.map Prod.fst).Nodup →
    kvs.foldl (fun b kv => bset b S kv.1 kv.2) (d₁ ++ [(S, cur)])
      = d₁ ++ [(S, cur ++ kvs)] := by
  intro kvs
  induction kvs with
  | nil =>
    intro cur _ _ _
    simp
  | cons kv rest ih =>
    intro cur hS hdisj hnd
    obtain ⟨K, V⟩ := kv
    have hnd' := nodup_fst_cons hnd
    show rest.foldl (fun b kv => bset b S kv.1 kv.2)
      (bset (d₁ ++ [(S, cur)]) S K V) = _
    rw [bset_last d₁ S cur K V hS, setA_append_of_none cur K V (hdisj K (by simp))]
    have hdisj' : ∀ k ∈ rest.map Prod.fst, lookupA (cur ++ [(K, V)]) k = none := by
      intro k hk
      rw [lookupA_append_of_none _ _ _ (hdisj k (by simp [hk]))]
      have hkK : k ≠ K := fun hEq => hnd'.1 (hEq ▸ hk)
      simp [lookupA, Ne.symm hkK]
    rw [ih (cur ++ [(K, V)]) hS hdisj' hnd'.2]
    simp

theorem replay_first (d₁ : Doc) (S : Str) (kvs : KVs) (hS : lookupA d₁ S = none)
    (hne0 : kvs ≠ []) (hndk : (kvs.map Prod.fst).Nodup) :
    kvs.foldl (fun b kv => bset b S kv.1 kv.2) d₁ = d₁ ++ [(S, kvs)] := by
  cases kvs with
  | nil => exact absurd rfl hne0
  | cons kv0 krest =>
    obtain ⟨K0, V0⟩ := kv0
    have hnd0 := nodup_fst_cons hndk
    show krest.foldl (fun b kv => bset b S kv.1 kv.2) (bset d₁ S K0 V0) = _
    rw [bset_fresh d₁ S K0 V0 hS]
    have hdisj0 : ∀ k ∈ krest.map Prod.fst, lookupA [(K0, V0)] k = none := by
      intro k hk
      have hkK : k ≠ K0 := fun hEq => hnd0.1 (hEq ▸ hk)
      simp [lookupA, Ne.symm hkK]
    rw [replay_section d₁ S krest [(K0, V0)] hS hdisj0 hnd0.2]
    simp

theorem replay_doc : ∀ (d₂ d₁ : Doc),
    (∀ s ∈ d₂.map Prod.fst, lookupA d₁ s = none) →
    (d₂.map Prod.fst).Nodup →
    (∀ s kvs, (s, kvs) ∈ d₂ → kvs ≠ []) →
    (∀ s kvs, (s, kvs) ∈ d₂ → (kvs.map Prod.fst).Nodup) →
    d₂.foldl (fun acc sec => sec.2.foldl (fun b kv => bset b sec.1 kv.1 kv.2) acc) d₁
      = d₁ ++ d₂ := by
  intro d₂
  induction d₂ with
  | nil =>
    intro d₁ _ _ _ _
    simp
  | cons sec rest ih =>
    intro d₁ hd1 hnd hne hinner
    obtain ⟨S, kvs⟩ := sec
    have hS : lookupA d₁ S = none := hd1 S (by simp)
    have hnd' := nodup_fst_cons hnd
    show rest.foldl (fun acc sec => sec.2.foldl (fun b kv => bset b sec.1 kv.1 kv.2) acc)
      (kvs.foldl (fun b kv => bset b S kv.1 kv.2) d₁) = _
    rw [replay_first d₁ S kvs hS (hne S kvs (by simp)) (hinner S kvs (by simp))]
    have hd1' : ∀ s ∈ rest.map Prod.fst, lookupA (d₁ ++ [(S, kvs)]) s = none := by
      intro s hs
      rw [lookupA_append_of_none _ _ _ (hd1 s (by simp [hs]))]
      have hsS : s ≠ S := fun hEq => hnd'.1 (hEq ▸ hs)
      simp [lookupA, Ne.symm hsS]
    rw [ih (d₁ ++ [(S, kvs)]) hd1' hnd'.2
      (fun s kvs' hm => hne s kvs' (by simp [hm]))
      (fun s kvs' hm => hinner s kvs' (by simp [hm]))]
    simp

theorem mem_arrayEntriesOf {st : StateX} {S : Str} {kvs : KVs} {pe : Str × List Str}
    (h : pe ∈ arrayEntriesOf st S kvs) :
    ∃ K V pt, (K, V) ∈ kvs ∧ findSub brackets K = some pt
      ∧ pe = (S ++ ['/'] ++ K.take pt,
          (lookupA st.arrays (S ++ ['/'] ++ K.take pt)).getD []) := by
  unfold arrayEntriesOf at h
  rw [List.mem_filterMap] at h
  obtain ⟨kv, hkv, hsome⟩ := h
  obtain ⟨K, V⟩ := kv
  cases hpt : findSub brackets K with
  | none => simp [hpt] at hsome
  | some pt =>
    simp only [hpt] at hsome
    injection hsome with hsome
    exact ⟨K, V, pt, hkv, hpt, hsome.symm⟩

theorem bget_of_mems {d : Doc} (hnd : (d.map Prod.fst).Nodup)
    (hin : InnerNodup d) {S K V : Str} {kvs : KVs}
    (hmem : (S, kvs) ∈ d) (hkv : (K, V) ∈ kvs) :
    bget d S K = some V := by
  unfold bget
  rw [lookupA_eq_some_of_mem_nodup hnd hmem]
  exact lookupA_eq_some_of_mem_nodup (hin S kvs hmem) hkv

theorem mem_regen_of (st : StateX) {S : Str} {kvs : KVs} (hmem : (S, kvs) ∈ st.builder)
    {pe : Str × List Str} (hpe : pe ∈ arrayEntriesOf st S kvs) :
    pe ∈ regenArrays st := by
  unfold regenArrays
  rw [List.mem_flatten]
  exact ⟨arrayEntriesOf st S kvs, List.mem_map.mpr ⟨(S, kvs), hmem, rfl⟩, hpe⟩

theorem mem_regen_elim (st : StateX) {pe : Str × List Str} (hpe : pe ∈ regenArrays st) :
    ∃ S kvs, (S, kvs) ∈ st.builder ∧ pe ∈ arrayEntriesOf st S kvs := by
  unfold regenArrays at hpe
  rw [List.mem_flatten] at hpe
  obtain ⟨l, hl, hpel⟩ := hpe
  obtain ⟨sec, hsec, rfl⟩ := List.mem_map.mp hl
  exact ⟨sec.1, sec.2, by simpa using hsec, hpel⟩

theorem lookupA_of_mem_unique {α : Type} {l : List (Str × α)} {k : Str} {v : α}
    (hm : (k, v) ∈ l) (huniq : ∀ v', (k, v') ∈ l → v' = v) : lookupA l k = some v := by
  induction l with
  | nil => cases hm
  | cons a t ih =>
    obtain ⟨k0, v0⟩ := a
    by_cases hk : k0 = k
    · subst hk
      have hv0 : v0 = v := huniq v0 (by simp)
      simp [lookupA, hv0]
    · simp only [lookupA, if_neg hk]
      refine ih ?_ ?_
      · rcases List.mem_cons.mp hm with h | h
        · exact absurd (congrArg Prod.fst h).symm hk
        · exact h
      · intro v' hv'
        exact huniq v' (List.mem_cons_of_mem _ hv')

theorem arrayEntriesOf_paths_nodup (st : StateX) (hB : Benign st)
    (S : Str) (kvs : KVs) (hmem : (S, kvs) ∈ st.builder) :
    ∀ (sub : KVs), sub.Sublist kvs → (sub.map Prod.fst).Nodup →
    ((arrayEntriesOf st S sub).map Prod.fst).Nodup := by
  intro sub
  induction sub with
  | nil =>
    intro _ _
    exact List.nodup_nil
  | cons kv rest ih =>
    intro hsl hnd
    obtain ⟨K, V⟩ := kv
    have hnd' := nodup_fst_cons hnd
    rw [arrayEntriesOf_cons st S (K, V) rest, List.map_append, List.nodup_append]
    refine ⟨?_, ih ((List.sublist_cons_self _ _).trans hsl) hnd'.2, ?_⟩
    · cases hpt : findSub brackets K with
      | none =>
        have hz : arrayEntriesOf st S [(K, V)] = [] := by
          unfold arrayEntriesOf
          simp [hpt]
        rw [hz]
        exact List.nodup_nil
      | some pt =>
        have hz : arrayEntriesOf st S [(K, V)]
            = [(S ++ ['/'] ++ K.take pt,
                (lookupA st.arrays (S ++ ['/'] ++ K.take pt)).getD [])] := by
          unfold arrayEntriesOf
          simp [hpt]
        rw [hz]
        simp
    · intro p hp1 hp2
      obtain ⟨pe1, hpe1, hfst1⟩ := List.mem_map.mp hp1
      obtain ⟨pe2, hpe2, hfst2⟩ := List.mem_map.mp hp2
      obtain ⟨K1, V1, pt1, hkv1, hf1, hpe1e⟩ := mem_arrayEntriesOf hpe1
      obtain ⟨K2, V2, pt2, hkv2, hf2, hpe2e⟩ := mem_arrayEntriesOf hpe2
      have hK1 : K1 = K ∧ V1 = V := by simpa using hkv1
      have hm1 : (K1, V1) ∈ kvs := hsl.subset (by simp [hK1.1, hK1.2])
      have hm2 : (K2, V2) ∈ kvs := hsl.subset (List.mem_cons_of_mem _ hkv2)
      have h1p : pe1.1 = S ++ ['/'] ++ K1.take pt1 := by rw [hpe1e]
      have h2p : pe2.1 = S ++ ['/'] ++ K2.take pt2 := by rw [hpe2e]
      have hpaths : S ++ '/' :: K1.take pt1 = S ++ '/' :: K2.take pt2 := by
        rw [← append_slash_eq S (K1.take pt1), ← append_slash_eq S (K2.take pt2),
          ← h1p, ← h2p, hfst1, hfst2]
      have hinj := hB.arrInj S kvs K1 V1 pt1 S kvs K2 V2 pt2
        hmem hm1 hf1 hmem hm2 hf2 hpaths
      apply hnd'.1
      show K ∈ rest.map Prod.fst
      rw [← hK1.1, hinj.2]
      exact List.mem_map.mpr ⟨(K2, V2), hkv2, rfl⟩

theorem builder_pairwise_disjoint (st : StateX) (hI : PInv st) (hB : Benign st) :
    List.Pairwise (fun sec₁ sec₂ => ∀ pe₁ ∈ arrayEntriesOf st sec₁.1 sec₁.2,
      ∀ pe₂ ∈ arrayEntriesOf st sec₂.1 sec₂.2, pe₁.1 ≠ pe₂.1) st.builder := by
  have hsecs : st.builder.Pairwise (fun a b => a.1 ≠ b.1) :=
    List.pairwise_map.mp hI.wf.2.1
  refine hsecs.imp_of_mem ?_
  intro sec₁ sec₂ hm₁ hm₂ hne pe₁ hpe₁ pe₂ hpe₂ hcon
  obtain ⟨K1, V1, pt1, hkv1, hf1, hp1⟩ := mem_arrayEntriesOf hpe₁
  obtain ⟨K2, V2, pt2, hkv2, hf2, hp2⟩ := mem_arrayEntriesOf hpe₂
  have h1p : pe₁.1 = sec₁.1 ++ ['/'] ++ K1.take pt1 := by rw [hp1]
  have h2p : pe₂.1 = sec₂.1 ++ ['/'] ++ K2.take pt2 := by rw [hp2]
  have hpaths : sec₁.1 ++ '/' :: K1.take pt1 = sec₂.1 ++ '/' :: K2.take pt2 := by
    rw [← append_slash_eq sec₁.1 (K1.take pt1), ← append_slash_eq sec₂.1 (K2.take pt2),
      ← h1p, ← h2p, hcon]
  have hinj := hB.arrInj sec₁.1 sec₁.2 K1 V1 pt1 sec₂.1 sec₂.2 K2 V2 pt2
    (by simpa using hm₁) hkv1 hf1 (by simpa using hm₂) hkv2 hf2 hpaths
  exact hne hinj.1

theorem process_blocks (st : StateX) (hI : PInv st) (hB : Benign st) :
    ∀ (secs : List (Str × KVs)), (∀ x ∈ secs, x ∈ st.builder) →
    (∀ sec ∈ secs, ((arrayEntriesOf st sec.1 sec.2).map Prod.fst).Nodup) →
    List.Pairwise (fun sec₁ sec₂ => ∀ pe₁ ∈ arrayEntriesOf st sec₁.1 sec₁.2,
      ∀ pe₂ ∈ arrayEntriesOf st sec₂.1 sec₂.2, pe₁.1 ≠ pe₂.1) secs →
    ∀ (acc : StateX),
    (∀ sec ∈ secs, ∀ pe ∈ arrayEntriesOf st sec.1 sec.2,
      lookupA acc.arrays pe.1 = none) →
    ∃ c' cur', loadLinesX acc ((secs.map (blockOf st)).flatten) = .ok
      { builder := secs.foldl (fun b sec =>
          sec.2.foldl (fun b' kv => bset b' sec.1 kv.1 kv.2) b) acc.builder,
        arrays := acc.arrays
          ++ (secs.map fun sec => arrayEntriesOf st sec.1 sec.2).flatten,
        connection := c', cur := cur' } := by
  intro secs
  induction secs with
  | nil =>
    intro _ _ _ acc _
    refine ⟨acc.connection, acc.cur, ?_⟩
    show (Except.ok acc : Except Err StateX) = _
    simp
  | cons sec rest ih =>
    intro hsub hint hpw acc hfresh
    obtain ⟨S, kvs⟩ := sec
    have hmem : (S, kvs) ∈ st.builder := hsub (S, kvs) (by simp)
    obtain ⟨c1, hblock⟩ := process_block st hI hB S kvs hmem acc
      (hfresh (S, kvs) (by simp)) (hint (S, kvs) (by simp))
    have hpw' := List.pairwise_cons.mp hpw
    have hfresh1 : ∀ sec' ∈ rest, ∀ pe ∈ arrayEntriesOf st sec'.1 sec'.2,
        lookupA (acc.arrays ++ arrayEntriesOf st S kvs) pe.1 = none := by
      intro sec' hs pe hpe
      rw [lookupA_append_of_none _ _ _ (hfresh sec' (by simp [hs]) pe hpe)]
      apply lookupA_eq_none_of_not_mem
      intro hin
      obtain ⟨pe1, hpe1, hfst1⟩ := List.mem_map.mp hin
      exact hpw'.1 sec' hs pe1 hpe1 pe hpe hfst1
    obtain ⟨c', cur', htail⟩ := ih (fun x hx => hsub x (by simp [hx]))
      (fun s hs => hint s (by simp [hs])) hpw'.2
      { builder := kvs.foldl (fun b kv => bset b S kv.1 kv.2) acc.builder,
        arrays := acc.arrays ++ arrayEntriesOf st S kvs,
        connection := c1, cur := S }
      hfresh1
    refine ⟨c', cur', ?_⟩
    have hflat : (((S, kvs) :: rest).map (blockOf st)).flatten
        = blockOf st (S, kvs) ++ (rest.map (blockOf st)).flatten := by
      simp
    rw [hflat, loadLinesX_append, hblock]
    show loadLinesX
      { builder := kvs.foldl (fun b kv => bset b S kv.1 kv.2) acc.builder,
        arrays := acc.arrays ++ arrayEntriesOf st S kvs,
        connection := c1, cur := S }
      ((rest.map (blockOf st)).flatten) = _
    rw [htail]
    show (Except.ok
      { builder := rest.foldl (fun b sec =>
          sec.2.foldl (fun b' kv => bset b' sec.1 kv.1 kv.2) b)
          (kvs.foldl (fun b kv => bset b S kv.1 kv.2) acc.builder),
        arrays := acc.arrays ++ arrayEntriesOf st S kvs
          ++ (rest.map fun sec => arrayEntriesOf st sec.1 sec.2).flatten,
        connection := c', cur := cur' } : Except Err StateX) = _
    rw [List.append_assoc]
    rfl

theorem regen_lookup (st : StateX) (hI : PInv st) (hB : Benign st) (p : Str) :
    lookupA (regenArrays st) p = lookupA st.arrays p := by
  cases hst : lookupA st.arrays p with
  | some es =>
    obtain ⟨hne, h2, h3⟩ := hI.arrEntries p es (mem_of_lookupA_eq_some hst)
    obtain ⟨s1, k1, pt1, hf1, hp1, hlast⟩ := h3
    have hbs1 : (bget st.builder s1 k1).isSome := by
      rw [hlast, List.getLast?_isSome]
      exact hne
    obtain ⟨v1, hv1⟩ := Option.isSome_iff_exists.mp hbs1
    obtain ⟨kvs1, hl1, hk1⟩ := bget_eq_some_elim hv1
    have hmem1 : (s1, kvs1) ∈ st.builder := mem_of_lookupA_eq_some hl1
    have hkv1 : (k1, v1) ∈ kvs1 := mem_of_lookupA_eq_some hk1
    have hpform : p = s1 ++ ['/'] ++ k1.take pt1 := by
      rw [hp1, append_slash_eq]
    have hentry : (p, es) ∈ arrayEntriesOf st s1 kvs1 := by
      unfold arrayEntriesOf
      rw [List.mem_filterMap]
      refine ⟨(k1, v1), hkv1, ?_⟩
      simp only [hf1]
      rw [← hpform, hst]
      rfl
    refine lookupA_of_mem_unique (mem_regen_of st hmem1 hentry) ?_
    intro es' hm'
    obtain ⟨S2, kvs2, hmem2, hpe2⟩ := mem_regen_elim st hm'
    obtain ⟨K2, V2, pt2, hkv2, hf2, hpe⟩ := mem_arrayEntriesOf hpe2
    injection hpe with hpeq hves
    rw [hves, ← hpeq, hst]
    rfl
  | none =>
    apply lookupA_eq_none_of_not_mem
    intro hin
    obtain ⟨pe, hpe, hfst⟩ := List.mem_map.mp hin
    obtain ⟨S2, kvs2, hmem2, hpe2⟩ := mem_regen_elim st hpe
    obtain ⟨K2, V2, pt2, hkv2, hf2, hpe'⟩ := mem_arrayEntriesOf hpe2
    have hbg2 : bget st.builder S2 K2 = some V2 :=
      bget_of_mems hI.wf.2.1 hI.wf.2.2 hmem2 hkv2
    obtain ⟨_, _, _, _, h5⟩ := hI.entries S2 K2 V2 hbg2
    have hsome := h5 pt2 hf2
    have h1 : pe.1 = S2 ++ ['/'] ++ K2.take pt2 := by rw [hpe']
    have hp : p = S2 ++ '/' :: K2.take pt2 := by
      rw [← hfst, h1]
      exact append_slash_eq _ _
    rw [← hp, hst] at hsome
    simpa using hsome

end RoundTripLemmas

/-- C1 (amended).  For every extended-parser state produced by parsing in
which distinct raw keys never share one ArrayIndex path (`Benign.arrInj`),
section names contain no `]` and no `"[]"` and do not start with `.`, and no
stored key begins with `;`: `save_ini_file` succeeds, re-parsing the saved
text succeeds, the Document is reproduced exactly, and every ArrayIndex key
maps to the same ordered element sequence.  (The unconditional claim is
refuted by `C1_roundtrip_counterexample`.) -/
theorem C1_roundtrip (L : List Str) (st : StateX)
    (hL : loadLinesX st0X L = .ok st) (hB : Benign st) :
    ∃ out st', saveX st = .ok out ∧ loadLinesX st0X out = .ok st'
      ∧ st'.builder = st.builder
      ∧ ∀ p, lookupA st'.arrays p = lookupA st.arrays p := by
  have hI : PInv st := PInv_load L st0X st hL PInv_init
  have hsave := saveX_ok st hI hB
  have hint : ∀ sec ∈ st.builder,
      ((arrayEntriesOf st sec.1 sec.2).map Prod.fst).Nodup := by
    intro sec hsec
    exact arrayEntriesOf_paths_nodup st hB sec.1 sec.2 (by simpa using hsec) sec.2
      (List.Sublist.refl _) (hI.wf.2.2 sec.1 sec.2 (by simpa using hsec))
  have hpw := builder_pairwise_disjoint st hI hB
  obtain ⟨c', cur', hrun⟩ := process_blocks st hI hB st.builder (fun x hx => hx)
    hint hpw st0X (fun sec hsec pe hpe => rfl)
  refine ⟨(st.builder.map (blockOf st)).flatten,
    { builder := st.builder.foldl (fun b sec => sec.2.foldl
        (fun b' kv => bset b' sec.1 kv.1 kv.2) b) st0X.builder,
      arrays := st0X.arrays
        ++ (st.builder.map fun sec => arrayEntriesOf st sec.1 sec.2).flatten,
      connection := c', cur := cur' },
    hsave, hrun, ?_, ?_⟩
  · show st.builder.foldl (fun b sec => sec.2.foldl
      (fun b' kv => bset b' sec.1 kv.1 kv.2) b) ([] : Doc) = st.builder
    rw [replay_doc st.builder [] (fun s _ => rfl) hI.wf.2.1 hI.wf.1 hI.wf.2.2]
    rfl
  · intro p
    show lookupA (regenArrays st) p = lookupA st.arrays p
    exact regen_lookup st hI hB p

/-- Witness for C1: the state parsed from `[s] / a = b / x[] = u / x[] = v`
satisfies the benign conditions, and the round trip reproduces its Document
and its ArrayIndex lookups exactly. -/
theorem C1_roundtrip_witness :
    ∃ out st',
      saveX ⟨[(chars "s", [(chars "a", chars "b"), (chars "x[]", chars "v")])],
        [(chars "s/x", [chars "u", chars "v"])], [], chars "s"⟩ = .ok out
      ∧ loadLinesX st0X out = .ok st'
      ∧ st'.builder = [(chars "s", [(chars "a", chars "b"), (chars "x[]", chars "v")])]
      ∧ ∀ p, lookupA st'.arrays p
          = lookupA [(chars "s/x", [chars "u", chars "v"])] p := by
  have hB : Benign ⟨[(chars "s", [(chars "a", chars "b"), (chars "x[]", chars "v")])],
      [(chars "s/x", [chars "u", chars "v"])], [], chars "s"⟩ := by
    constructor
    · intro s kvs hmem
      rw [List.mem_singleton] at hmem
      injection hmem with h1 h2
      subst h1
      exact ⟨by decide, by decide, by decide⟩
    · intro s kvs k v hmem hkv
      rw [List.mem_singleton] at hmem
      injection hmem with h1 h2
      subst h2
      rcases List.mem_cons.mp hkv with h | h
      · injection h with hk hv
        subst hk
        decide
      · rw [List.mem_singleton] at h
        injection h with hk hv
        subst hk
        decide
    · intro s₁ kvs₁ k₁ v₁ pt₁ s₂ kvs₂ k₂ v₂ pt₂ hm₁ hkv₁ hf₁ hm₂ hkv₂ hf₂ hpeq
      rw [List.mem_singleton] at hm₁ hm₂
      injection hm₁ with hs₁ hkvs₁
      injection hm₂ with hs₂ hkvs₂
      subst hs₁
      subst hs₂
      subst hkvs₁
      subst hkvs₂
      rcases List.mem_cons.mp hkv₁ with h | h
      · injection h with hk hv
        subst hk
        rw [(by decide : findSub brackets (chars "a") = none)] at hf₁
        exact Option.noConfusion hf₁
      · rw [List.mem_singleton] at h
        injection h with hk hv
        subst hk
        rcases List.mem_cons.mp hkv₂ with h2 | h2
        · injection h2 with hk2 hv2
          subst hk2
          rw [(by decide : findSub brackets (chars "a") = none)] at hf₂
          exact Option.noConfusion hf₂
        · rw [List.mem_singleton] at h2
          injection h2 with hk2 hv2
          subst hk2
          exact ⟨rfl, rfl⟩
  exact C1_roundtrip [chars "[s]", chars "a = b", chars "x[] = u", chars "x[] = v"]
    ⟨[(chars "s", [(chars "a", chars "b"), (chars "x[]", chars "v")])],
      [(chars "s/x", [chars "u", chars "v"])], [], chars "s"⟩ rfl hB

/-- C2 (amended).  The `add_key` contract holds as claimed for every section
name `S` that does not contain `/` (for arbitrary document, key and value):
`CanNotArray` when the key contains `"[]"`, otherwise `KeyAlreadyExist`
exactly when the qualified key `S/K` exists, and otherwise a successful
insert after which `exists(S/K)` is true and `get(S,K)` returns the value.
(When `S` contains `/` the qualified-key probes split at the wrong `/` and
the postcondition fails; see the counterexample.) -/
theorem C2_addKey_contract (d : Doc) (s k v : Str) (hs : findChar '/' s = none) :
    ((findSub brackets k).isSome = true → addKey d s k v = .error .canNotArray)
    ∧ ((findSub brackets k).isSome = false → include' d (s ++ ['/'] ++ k) = true →
        addKey d s k v = .error .keyAlreadyExist)
    ∧ ((findSub brackets k).isSome = false → include' d (s ++ ['/'] ++ k) = false →
        addKey d s k v = .ok (bset d s k v)
        ∧ include' (bset d s k v) (s ++ ['/'] ++ k) = true
        ∧ value2 (bset d s k v) s k = .ok (bset d s k v, v)) := by
  refine ⟨?_, ?_, ?_⟩
  · intro h
    unfold addKey
    rw [if_pos (by simp [h])]
  · intro h1 h2
    have hsec : include' d s = true := by
      rw [include'_no_slash d s hs]
      rw [include'_qualified d s k hs] at h2
      unfold bget at h2
      cases hl : lookupA d s with
      | none => rw [hl] at h2; simp at h2
      | some kvs => simp
    unfold addKey
    rw [if_neg (by simp [h1]), hsec, h2]
    simp
  · intro h1 h2
    have haddk : addKey d s k v = .ok (bset d s k v) := by
      unfold addKey
      rw [if_neg (by simp [h1])]
      cases hsec : include' d s with
      | false => simp
      | true =>
        have h2' : include' d (s ++ '/' :: k) = false := by
          rw [← append_slash_eq]
          exact h2
        simp [h2']
    have hinc : include' (bset d s k v) (s ++ ['/'] ++ k) = true := by
      rw [include'_qualified _ s k hs, bget_bset_self]
      rfl
    refine ⟨haddk, hinc, ?_⟩
    have hsec : include' (bset d s k v) s = true := by
      rw [include'_no_slash _ s hs]
      simpa using lookupA_bset_self_isSome d s k v
    unfold value2
    rw [hsec, hinc]
    simp only [if_true]
    unfold bref
    rw [bget_bset_self]

/-- C2, witness: inserting `Name = John` into a fresh document's section
`Profile` succeeds, is visible through `exists`, and `get` returns it. -/
theorem C2_addKey_contract_witness :
    addKey [] (chars "Profile") (chars "Name") (chars "John")
        = .ok [(chars "Profile", [(chars "Name", chars "John")])]
    ∧ include' [(chars "Profile", [(chars "Name", chars "John")])] (chars "Profile/Name") = true
    ∧ value2 [(chars "Profile", [(chars "Name", chars "John")])] (chars "Profile") (chars "Name")
        = .ok ([(chars "Profile", [(chars "Name", chars "John")])], chars "John") :=
  (C2_addKey_contract [] (chars "Profile") (chars "Name") (chars "John") (by decide)).2.2
    (by decide) (by decide)

/-- C3 (amended).  After a *successful* `add_array(S, K, E)` — with `S` free
of `/` and `"[]"` and `K` free of `"[]"` — the scalar accessor invoked with
the plain key `K` fails with `KeyNotFound` (only the bookkeeping entry `K[]`
exists in the section), and invoked with the suffixed key `K[]` it fails
with `KeyIsArray` as the claim expected. -/
theorem C3_addArray_value (st st' : StateX) (s k : Str) (arr : List Str)
    (hs : findChar '/' s = none)
    (hsb : findSub brackets s = none)
    (hk : findSub brackets k = none)
    (hadd : addArray st s k arr = .ok st') :
    valueX2 st' s k = .error .keyNotFound
    ∧ valueX2 st' s (k ++ brackets) = .error .keyIsArray := by
  unfold addArray at hadd
  rw [getArrayName_of_none hk] at hadd
  dsimp only at hadd
  cases hc : (!include' st.builder (s ++ ['/'] ++ k ++ brackets)
      && !include' st.builder (s ++ ['/'] ++ k)) with
  | false =>
    rw [hc] at hadd
    simp at hadd
  | true =>
    rw [hc] at hadd
    simp only [if_true] at hadd
    have hc2 : include' st.builder (s ++ ['/'] ++ k) = false := by
      have := hc
      simp only [Bool.and_eq_true, Bool.not_eq_true'] at this
      exact this.2
    cases hl : arr.getLast? with
    | none =>
      rw [hl] at hadd
      exact absurd hadd (by simp)
    | some last =>
      rw [hl] at hadd
      have hst' : st' = { st with
          builder := bset st.builder s (k ++ brackets) last,
          arrays := aset st.arrays (s ++ ['/'] ++ k) arr } := by
        injection hadd with h
        exact h.symm
      subst hst'
      have hkne : k ≠ k ++ brackets := by
        intro h
        have := congrArg List.length h
        simp [brackets] at this
      have hsec : include' (bset st.builder s (k ++ brackets) last) s = true := by
        rw [include'_no_slash _ s hs]
        simpa using lookupA_bset_self_isSome st.builder s (k ++ brackets) last
      constructor
      · have hkabs : include' (bset st.builder s (k ++ brackets) last)
            (s ++ ['/'] ++ k) = false := by
          rw [include'_qualified _ s k hs, bget_bset_same_sec_ne _ _ _ _ _ hkne]
          rw [include'_qualified st.builder s k hs] at hc2
          exact hc2
        unfold valueX2
        simp only [hsec, hkabs]
        simp
      · have hkpres : include' (bset st.builder s (k ++ brackets) last)
            (s ++ ['/'] ++ (k ++ brackets)) = true := by
          rw [include'_qualified _ s (k ++ brackets) hs, bget_bset_self]
          rfl
        have hisarr : isArray1
            { st with builder := bset st.builder s (k ++ brackets) last,
                      arrays := aset st.arrays (s ++ ['/'] ++ k) arr }
            (s ++ ['/'] ++ (k ++ brackets)) = true := by
          unfold isArray1
          rw [getArrayName_qualified_suffix s k hsb hk]
          show (lookupA (aset st.arrays (s ++ ['/'] ++ k) arr) (s ++ ['/'] ++ k)).isSome = true
          rw [lookupA_aset_self]
          rfl
        unfold valueX2
        simp only [hsec, hkpres, hisarr]
        simp

/-- C3, witness: `add_array("Log", "files", {"a"})` then the two accessor
calls, with their exact exceptions. -/
theorem C3_addArray_value_witness :
    (do
      let st ← addArray st0X (chars "Log") (chars "files") [chars "a"]
      valueX2 st (chars "Log") (chars "files"))
    = Except.error .keyNotFound := by
  have h := C3_addArray_value st0X
    ⟨[(chars "Log", [(chars "files[]", chars "a")])],
     [(chars "Log/files", [chars "a"])], [], []⟩
    (chars "Log") (chars "files") [chars "a"]
    (by decide) (by decide) (by decide) rfl
  exact h.1

/-- C7 (confirmed).  In every state of the extended parser reachable by
`add_key`, `remove_key`, `add_array`, `remove_array` and parsing, every
section of the Document holds at least one key; `remove_key` on the last
key of a section removes the section (its name no longer resolves); and
`remove_key` of an absent qualified key fails with `KeyNotFound` — the
check precedes every mutation, so the Document is untouched. -/
theorem C7_no_empty_sections :
    (∀ st : StateX, ReachX st → SectionsNonempty st.builder)
    ∧ (∀ (st : StateX) (s k v : Str) (st' : StateX), ReachX st →
        lookupA st.builder s = some [(k, v)] → removeKeyX st s k = .ok st' →
        lookupA st'.builder s = none)
    ∧ (∀ (st : StateX) (s k : Str), include' st.builder (s ++ ['/'] ++ k) = false →
        removeKeyX st s k = .error .keyNotFound) := by
  refine ⟨fun st h => (reachX_invariant st h).1, ?_, ?_⟩
  · intro st s k v st' hr hl hok
    have hnodup := (reachX_invariant st hr).2.1
    unfold removeKeyX at hok
    cases hrk : removeKey st.builder s k with
    | error e =>
      rw [hrk] at hok
      exact absurd hok (by simp)
    | ok b' =>
      rw [hrk] at hok
      injection hok with hok
      subst hok
      show lookupA b' s = none
      unfold removeKey at hrk
      split at hrk
      · injection hrk with hrk
        subst hrk
        rw [hl]
        have hin : eraseA ((some [(k, v)]).getD []) k = [] := by simp [eraseA]
        rw [if_pos hin]
        exact lookupA_eraseA_self _ _ hnodup
      · exact absurd hrk (by simp)
  · intro st s k hinc
    have hinc' : include' st.builder (s ++ '/' :: k) = false := by
      rw [← append_slash_eq]
      exact hinc
    have h : removeKey st.builder s k = .error .keyNotFound := by
      unfold removeKey
      rw [if_neg (by simp [hinc'])]
    unfold removeKeyX
    rw [h]

/-- C7, witness: the three parts applied at concrete states — the reachable
state holding `A/k = v`, its removal emptying section `A`, and a failing
removal on the empty state. -/
theorem C7_no_empty_sections_witness :
    SectionsNonempty ((⟨[(chars "A", [(chars "k", chars "v")])], [], [], []⟩ : StateX)).builder
    ∧ lookupA ((⟨[], [], [], []⟩ : StateX)).builder (chars "A") = none
    ∧ removeKeyX (⟨[], [], [], []⟩ : StateX) (chars "B") (chars "x")
        = .error .keyNotFound := by
  have hreach : ReachX (⟨[(chars "A", [(chars "k", chars "v")])], [], [], []⟩ : StateX) :=
    ReachX.addKey st0X (chars "A") (chars "k") (chars "v") _ ReachX.init rfl
  refine ⟨C7_no_empty_sections.1 _ hreach, ?_, ?_⟩
  · exact C7_no_empty_sections.2.1 _ (chars "A") (chars "k") (chars "v")
      (⟨[], [], [], []⟩ : StateX) hreach rfl rfl
  · exact C7_no_empty_sections.2.2 (⟨[], [], [], []⟩ : StateX) (chars "B") (chars "x") rfl

/-- C8 (amended).  The ArrayIndex bookkeeping invariant — every registered
path `section/key` has, under some reading, a raw `key[]` entry in the
owning section — holds in every state reachable by the public mutating
operations *provided* `remove_key`, `add_array` and `remove_array` are only
invoked with `"[]"`-free key arguments and parsed array keys carry `"[]"`
exactly as a suffix (`ReachArr`); moreover a successful `remove_array`
leaves no bookkeeping `key[]` scalar behind.  (Unrestricted `remove_key`
can erase the bookkeeping entry while leaving the ArrayIndex entry — see
the counterexample — and a suffixed `remove_array("S","k[]")` erases
`k[][]` instead of `k[]`, orphaning the scalar.) -/
theorem C8_array_bookkeeping :
    (∀ st : StateX, ReachArr st →
      ∀ p es, (p, es) ∈ st.arrays →
        ∃ s k, p = s ++ '/' :: k ∧ (bget st.builder s (k ++ brackets)).isSome)
    ∧ (∀ (st : StateX) (s k : Str) (st' : StateX), ReachArr st →
        findSub brackets k = none → removeArray st s k = .ok st' →
        bget st'.builder s (k ++ brackets) = none)
    ∧ (∀ st : StateX, ReachArr st → arrayBookkept st = true) := by
  refine ⟨fun st h => (reachArr_invariant st h).2, ?_,
    fun st h => arrayBookkept_of_inv st (reachArr_invariant st h).2⟩
  intro st s k st' hr hk hok
  obtain ⟨hne, hnodup, hinner⟩ := reachX_invariant st (reachArr_reachX hr)
  have hsh := removeArray_ok_shape hk hok
  subst hsh
  show bget (if eraseA ((lookupA st.builder s).getD []) (k ++ brackets) = []
      then eraseA st.builder s
      else setA st.builder s (eraseA ((lookupA st.builder s).getD []) (k ++ brackets)))
      s (k ++ brackets) = none
  by_cases hin : eraseA ((lookupA st.builder s).getD []) (k ++ brackets) = []
  · rw [if_pos hin]
    unfold bget
    rw [lookupA_eraseA_self _ _ hnodup]
    rfl
  · rw [if_neg hin]
    unfold bget
    rw [lookupA_setA_self]
    simp only [Option.some_bind]
    cases hl : lookupA st.builder s with
    | none =>
      rw [hl] at hin
      simp [eraseA] at hin
    | some inner =>
      simp only [Option.getD_some]
      exact lookupA_eraseA_self _ _ (hinner s inner (mem_of_lookupA_eq_some hl))

/-- C8, witness: the bookkeeping invariant evaluated on the reachable state
produced by `add_array("A", "k", {"v"})`. -/
theorem C8_array_bookkeeping_witness :
    (∃ s k, chars "A/k" = s ++ '/' :: k
      ∧ (bget [(chars "A", [(chars "k[]", chars "v")])] s (k ++ brackets)).isSome)
    ∧ arrayBookkept ⟨[(chars "A", [(chars "k[]", chars "v")])],
        [(chars "A/k", [chars "v"])], [], []⟩ = true := by
  have hreach : ReachArr (⟨[(chars "A", [(chars "k[]", chars "v")])],
      [(chars "A/k", [chars "v"])], [], []⟩ : StateX) :=
    ReachArr.addArray st0X (chars "A") (chars "k") [chars "v"] _ ReachArr.init
      (by decide) rfl
  exact ⟨C8_array_bookkeeping.1 _ hreach (chars "A/k") [chars "v"] (by simp),
    C8_array_bookkeeping.2.2 _ hreach⟩

/-- C10 (amended).  The base `operator[]` behaves exactly as claimed:
`KeyNotFound` exactly when the argument has no `/` or the section part is
absent; when the section exists and the key is absent it inserts the key
with an empty-string value and hands back the reference.  The extended
`operator[]` raises `KeyNotFound` under the same condition, but additionally
raises `KeyIsArray` when the suffix-stripped argument is registered in
ArrayIndex — even when the section exists — and only otherwise falls
through to the inserting behaviour. -/
theorem C10_opIndex_contract :
    (∀ (d : Doc) (key : Str), opIndex d key = .error .keyNotFound ↔
      (findChar '/' key = none ∨
        ∃ x, findChar '/' key = some x ∧ include' d (key.take x) = false))
    ∧ (∀ (d : Doc) (key : Str) (x : Nat), findChar '/' key = some x →
        include' d (key.take x) = true → bget d (key.take x) (key.drop (x + 1)) = none →
        opIndex d key = .ok (bset d (key.take x) (key.drop (x + 1)) [], [])
        ∧ bget (bset d (key.take x) (key.drop (x + 1)) []) (key.take x) (key.drop (x + 1))
            = some [])
    ∧ (∀ (st : StateX) (key : Str), opIndexX st key = .error .keyNotFound ↔
      (findChar '/' key = none ∨
        ∃ x, findChar '/' key = some x ∧ include' st.builder (key.take x) = false))
    ∧ (∀ (st : StateX) (key : Str) (x : Nat), findChar '/' key = some x →
        include' st.builder (key.take x) = true → isArray1 st key = true →
        opIndexX st key = .error .keyIsArray)
    ∧ (∀ (st : StateX) (key : Str) (x : Nat), findChar '/' key = some x →
        include' st.builder (key.take x) = true → isArray1 st key = false →
        bget st.builder (key.take x) (key.drop (x + 1)) = none →
        opIndexX st key = .ok
          ({ st with builder := bset st.builder (key.take x) (key.drop (x + 1)) [] }, [])) := by
  refine ⟨?_, ?_, ?_, ?_, ?_⟩
  · intro d key
    unfold opIndex
    cases hx : findChar '/' key with
    | none => simp
    | some x =>
      cases hinc : include' d (key.take x) with
      | false => simp [hinc]
      | true => simp [hinc]
  · intro d key x hx hinc habs
    unfold opIndex
    rw [hx]
    simp only [hinc, if_true]
    unfold bref
    rw [habs]
    exact ⟨rfl, bget_bset_self _ _ _ _⟩
  · intro st key
    unfold opIndexX
    cases hx : findChar '/' key with
    | none => simp
    | some x =>
      cases hinc : include' st.builder (key.take x) with
      | false => simp [hinc]
      | true =>
        cases harr : isArray1 st key with
        | false => simp [hinc, harr]
        | true => simp [hinc, harr]
  · intro st key x hx hinc harr
    unfold opIndexX
    rw [hx]
    simp [hinc, harr]
  · intro st key x hx hinc harr habs
    unfold opIndexX
    rw [hx]
    simp only [hinc, harr, if_true, Bool.false_eq_true, if_false]
    unfold bref
    rw [habs]

/-- C10, witness: with section `A` present and key `k` absent, `operator[]`
default-inserts the empty string and returns the reference. -/
theorem C10_opIndex_contract_witness :
    opIndex [(chars "A", [(chars "x", chars "y")])] (chars "A/k")
      = .ok ([(chars "A", [(chars "x", chars "y"), (chars "k", chars "")])], chars "")
    ∧ bget [(chars "A", [(chars "x", chars "y"), (chars "k", chars "")])]
        (chars "A") (chars "k") = some (chars "") :=
  C10_opIndex_contract.2.1 [(chars "A", [(chars "x", chars "y")])] (chars "A/k") 1
    (by decide) (by decide) (by decide)

/-- C5 (amended).  For every line that contains `=`, whose first character
is not `;`, in which the first `;` of the line — if any — occurs after the
first `=`, and whose key text and truncated value text each contain a
non-space character: the parser stores, under the current section, the key
equal to the text before the first `=` and the value equal to the text after
it truncated at the `;`, with only leading and trailing ASCII spaces removed
from both; in particular `key = value ; note` stores the value `value`.
(As stated the claim fails when a `;` precedes the `=` — then no truncation
happens at all — and when a part is empty or all spaces — then parsing
throws; see the counterexample.) -/
theorem C5_assignment (st : StateB) (buf : Str) (sp : Nat)
    (hsp : findChar '=' buf = some sp)
    (hc : buf.head? ≠ some ';')
    (hsq : (findChar ';' buf).all (fun sq => decide (sp < sq)) = true)
    (hkey : (buf.take sp).all (· == ' ') = false)
    (hval : (valuePart buf sp).all (· == ' ') = false) :
    parseInlineB st buf = .ok { st with
      builder := bset st.builder st.cur (trim (buf.take sp)) (trim (valuePart buf sp)) } := by
  have heq : valueRaw buf sp = valuePart buf sp := by
    unfold valueRaw valuePart
    cases hq : findChar ';' buf with
    | none => rfl
    | some sq =>
      rw [hq] at hsq
      have hlt : sp < sq := by simpa [Option.all] using hsq
      simp [hlt]
  rw [← heq] at hval ⊢
  exact parseInlineB_assign st buf sp hsp hc hkey hval

/-- C5, witness: the spec's own scenario line. -/
theorem C5_assignment_witness :
    parseInlineB st0B (chars "key = value ; note")
      = .ok ⟨[(chars "", [(chars "key", chars "value")])], chars ""⟩ :=
  C5_assignment st0B (chars "key = value ; note") 4 (by decide) (by decide)
    (by decide) (by decide) (by decide)

/-- C6 (amended).  The current-section variable of the base parser is
function-local `static` state, initialised empty once at program start and
*not* reset by `load_ini_file`: an assignment line at the start of a load
call performed from state `st` is stored under `st.cur`, the section left
behind by whatever was parsed before (which is the empty no-section context
only if nothing was parsed before). -/
theorem C6_no_reset (st : StateB) (buf : Str) (sp : Nat)
    (hsp : findChar '=' buf = some sp)
    (hc : buf.head? ≠ some ';')
    (hkey : (buf.take sp).all (· == ' ') = false)
    (hval : (valueRaw buf sp).all (· == ' ') = false) :
    loadLinesB st [buf] = .ok { st with
      builder := bset st.builder st.cur (trim (buf.take sp)) (trim (valueRaw buf sp)) } := by
  unfold loadLinesB
  rw [parseInlineB_assign st buf sp hsp hc hkey hval]
  rfl

/-- C6, witness: with section `A` left over from earlier parsing, a fresh
load of the single line `k = v` stores the pair under `A`. -/
theorem C6_no_reset_witness :
    loadLinesB ⟨[], chars "A"⟩ [chars "k = v"]
      = .ok ⟨[(chars "A", [(chars "k", chars "v")])], chars "A"⟩ :=
  C6_no_reset ⟨[], chars "A"⟩ (chars "k = v") 2 (by decide) (by decide)
    (by decide) (by decide)

/-- C9 (confirmed).  For every non-comment assignment line whose key text,
or whose value text as the source extracts it, is empty or all spaces,
`strip` hits `substr(npos, ...)` and throws `std::out_of_range`, so
`parse_inline` fails — and so does a load whose next line it is — instead
of storing an empty key or value. -/
theorem C9_strip_out_of_range (st : StateB) (buf : Str) (sp : Nat) (rest : List Str)
    (hsp : findChar '=' buf = some sp)
    (hc : buf.head? ≠ some ';')
    (h : (buf.take sp).all (· == ' ') = true ∨ (valueRaw buf sp).all (· == ' ') = true) :
    parseInlineB st buf = .error .outOfRange
    ∧ loadLinesB st (buf :: rest) = .error .outOfRange := by
  have hcm : ¬ findChar ';' buf = some 0 := by
    rw [findChar_eq_some_zero_iff]
    exact hc
  have hmain : parseInlineB st buf = .error .outOfRange := by
    cases hk : (buf.take sp).all (· == ' ') with
    | true =>
      have h1 : strip (buf.take sp) = .error .outOfRange := by
        unfold strip
        rw [if_pos (by simp [hk])]
      simp only [parseInlineB, if_neg hcm, hsp, h1]
    | false =>
      have hv : (valueRaw buf sp).all (· == ' ') = true := by
        rcases h with h' | h'
        · rw [h'] at hk
          exact Bool.noConfusion hk
        · exact h'
      have h1 : strip (buf.take sp) = .ok (trim (buf.take sp)) := by
        unfold strip
        rw [if_neg (by simp [hk])]
      have h2 : strip (valueRaw buf sp) = .error .outOfRange := by
        unfold strip
        rw [if_pos (by simp [hv])]
      simp only [parseInlineB, if_neg hcm, hsp, h1, h2]
  refine ⟨hmain, ?_⟩
  unfold loadLinesB
  rw [hmain]

/-- C9, witness: the line `key=` (empty value text). -/
theorem C9_strip_out_of_range_witness :
    parseInlineB st0B (chars "key=") = .error .outOfRange
    ∧ loadLinesB st0B [chars "key=", chars "[A]"] = .error .outOfRange :=
  C9_strip_out_of_range st0B (chars "key=") 3 [chars "[A]"] (by decide) (by decide)
    (Or.inr (by decide))

/-- C1, counterexample.  Parsing the extended-variant document
`[s] / x[] = a / x[]z = b` succeeds and registers the array `s/x` with
elements `a, b`; saving and re-parsing the saved text also succeeds but
leaves `s/x` with elements `a, b, a, b`, because both raw keys `x[]` and
`x[]z` re-emit the whole shared array.  So the round-trip does not preserve
the ordered element sequence of every ArrayIndex key. -/
theorem C1_roundtrip_counterexample :
    (do
      let st ← loadLinesX st0X [chars "[s]", chars "x[] = a", chars "x[]z = b"]
      let out ← saveX st
      let st' ← loadLinesX st0X out
      pure (lookupA st.arrays (chars "s/x"), lookupA st'.arrays (chars "s/x")))
    = Except.ok (some [chars "a", chars "b"],
                 some [chars "a", chars "b", chars "a", chars "b"]) := by
  rfl

/-- C2, counterexample.  With a section name containing `/`, `add_key`
succeeds but the inserted pair is not visible through `exists`: starting
from the empty document, `add_key("a/b", "c", "v")` returns normally, yet
`include("a/b/c")` is false afterwards (the qualified key is split at its
first `/`, probing section `a` for key `b/c`). -/
theorem C2_addKey_counterexample :
    (do
      let d ← addKey [] (chars "a/b") (chars "c") (chars "v")
      pure (include' d (chars "a/b/c")))
    = Except.ok false := by
  rfl

/-- C3, counterexample.  After a successful `add_array("A", "k", {"v"})` the
scalar accessor `value("A", "k")` — with the key exactly as registered,
without the `[]` suffix — fails with `KeyNotFound`, not `KeyIsArray`: the
document only holds the bookkeeping entry `k[]`, so the existence check
fires before the array check is reached. -/
theorem C3_value_counterexample :
    (do
      let st ← addArray st0X (chars "A") (chars "k") [chars "v"]
      valueX2 st (chars "A") (chars "k"))
    = Except.error .keyNotFound := by
  rfl

/-- C4, the `size_of_array(key)` bug evaluated.  After
`add_array("Log", "files", {"a"})`, the single-argument overload applied to
the suffixed key `Log/files[]` throws `std::out_of_range` (modelled as
`outOfRange`): it checks `is_array` on the suffix-stripped key but then
evaluates `arrays.at(key)` on the unstripped argument.  The same overload
without the suffix, and the two-argument overload with the suffix, both
return the element count 1 as the spec states. -/
theorem C4_sizeOfArray_unstripped_at :
    (do
      let st ← addArray st0X (chars "Log") (chars "files") [chars "a"]
      pure (sizeOfArray1 st (chars "Log/files[]"), sizeOfArray1 st (chars "Log/files"),
            sizeOfArray2 st (chars "Log") (chars "files[]")))
    = Except.ok (.error .outOfRange, .ok 1, .ok 1) := by
  rfl

/-- C5, counterexample.  In the line `a;b=c;d` the first `;` of the line
precedes the `=`, so the `size_t` count `sq - sp - 1` wraps around and the
stored value is the whole tail `c;d` — not `c`, the text truncated at the
`;` that occurs after the `=` as the claim states. -/
theorem C5_truncation_counterexample :
    (do
      let st ← parseInlineB st0B (chars "a;b=c;d")
      pure (bget st.builder (chars "") (chars "a;b")))
    = Except.ok (some (chars "c;d")) := by
  rfl

/-- C6, counterexample.  The current-section variable is function-local
`static` state: after an earlier load whose last header was `[A]`, a fresh
load call beginning with the assignment `k = v` stores the key under
section `A`, not under the implicit no-section context. -/
theorem C6_static_counterexample :
    (do
      let st1 ← loadLinesB st0B [chars "[A]"]
      let st2 ← loadLinesB st1 [chars "k = v"]
      pure (bget st2.builder (chars "") (chars "k"), bget st2.builder (chars "A") (chars "k")))
    = Except.ok (none, some (chars "v")) := by
  rfl

/-- C8, counterexample.  `IniParserX::remove_key` does not touch `arrays`:
after `add_array("A", "k", {"v"})` followed by `remove_key("A", "k[]")`
(erasing the bookkeeping entry), the path `A/k` is still registered in
ArrayIndex while no `k[]` entry exists in any section — the bookkeeping
invariant is violated in a state reachable by public mutating operations. -/
theorem C8_removeKey_counterexample :
    (do
      let st1 ← addArray st0X (chars "A") (chars "k") [chars "v"]
      let st2 ← removeKeyX st1 (chars "A") (chars "k[]")
      pure (arrayBookkept st2, lookupA st2.arrays (chars "A/k"), st2.builder))
    = Except.ok (false, some [chars "v"], []) := by
  rfl

/-- C10, counterexample.  For the extended parser, `operator[]` can fail
even though the key is qualified and its section exists: after
`add_array("A", "k", {"v"})` the section `A` exists and the key `k` is
absent from it, yet `operator[]("A/k")` throws `KeyIsArray` instead of
inserting an empty-string entry. -/
theorem C10_opIndexX_counterexample :
    (do
      let st1 ← addArray st0X (chars "A") (chars "k") [chars "v"]
      pure (include' st1.builder (chars "A"), bget st1.builder (chars "A") (chars "k")))
    = Except.ok (true, none)
    ∧ (do
      let st1 ← addArray st0X (chars "A") (chars "k") [chars "v"]
      opIndexX st1 (chars "A/k"))
    = Except.error .keyIsArray :=
  ⟨rfl, rfl⟩

end IniP

